import Mathlib

/-!
Shallow embedding of the quadtree core of the conways_game repository
(src/conway_module/lib/workers/GridSystem.worker.js, quadtree module part,
and src/conway_module/lib/core/DrawingStateManager.js, GameManager part),
together with theorems settling the frozen claims about it.

Modelling conventions:
* JS numbers that hold grid coordinates are modelled as Int.  The only
  non-integer coordinate value in the source is Infinity, used by the frozen
  DeadCell singleton; it is modelled by the dedicated Coord type below.
* The in-place mutation of the pointer-based tree is modelled functionally:
  every mutating method returns the updated value.
* addCell recurses on freshly created children, and for some inputs the JS
  recursion does not terminate; the embedding therefore takes a fuel
  parameter and returns none when the fuel runs out (the JS analogue of
  that case is divergence).
* Thrown JS errors are modelled with Except String.
-/

set_option maxHeartbeats 1000000

/-- States of a cell.  Modelled from the spec: the CellStates module of
conway_module (required by the quadtree module as CellStates.ALIVE and
CellStates.DEAD) is not under src/; the spec gives the enum
{ALIVE, DEAD, RETIRED}.  No claim depends on the numeric constants. -/
inductive CellState where
  | alive : CellState
  | dead : CellState
  | retired : CellState
deriving DecidableEq, Repr

/-- A single unit on the abstract 2D grid (class Cell).  The width and
height of every cell are the constant 1 in the source constructor, so they
are not stored.  The constructor defaults are age = 0, state = ALIVE. -/
structure Cell where
  row : Int
  col : Int
  age : Int
  state : CellState
deriving DecidableEq, Repr

/-- Cell.getState. -/
def Cell.getState (c : Cell) : CellState := c.state

/-- Cell.clone: a deep copy of the cell. -/
def Cell.clone (c : Cell) : Cell := ⟨c.row, c.col, c.age, c.state⟩

/-- Cell.isInsideRect: intersection test of the cell location against an
inclusive rectangle. -/
def Cell.isInsideRect (c : Cell) (x y xx yy : Int) : Bool :=
  decide (x ≤ c.row ∧ c.row ≤ xx ∧ y ≤ c.col ∧ c.col ≤ yy)

/-- A coordinate as observed on a lookup result: either a finite grid
coordinate or the JS value Infinity (carried by the DeadCell singleton). -/
inductive Coord where
  | ofInt : Int → Coord
  | infinity : Coord
deriving DecidableEq, Repr

/-- Result of QuadTree.findCellIfAlive: either a cell stored in the leaves
sequence, or the frozen DeadCell singleton
(new Cell(Infinity, Infinity, 0, CellStates.DEAD), Object.freeze applied). -/
inductive FoundCell where
  | cell : Cell → FoundCell
  | deadCell : FoundCell
deriving DecidableEq, Repr

/-- The location.row field of a lookup result; Infinity on the DeadCell. -/
def FoundCell.locationRow : FoundCell → Coord
  | .cell c => .ofInt c.row
  | .deadCell => .infinity

/-- The location.col field of a lookup result; Infinity on the DeadCell. -/
def FoundCell.locationCol : FoundCell → Coord
  | .cell c => .ofInt c.col
  | .deadCell => .infinity

/-- The age field of a lookup result; the DeadCell singleton has age 0. -/
def FoundCell.age : FoundCell → Int
  | .cell c => c.age
  | .deadCell => 0

/-- getState on a lookup result; the DeadCell singleton is DEAD. -/
def FoundCell.getState : FoundCell → CellState
  | .cell c => c.getState
  | .deadCell => .dead

/-- The rect field of a QTNode: an axis-aligned rectangle given by two
corner points. -/
structure Rect where
  x : Int
  y : Int
  xx : Int
  yy : Int
deriving DecidableEq, Repr

/-- QTNode.containsPoint: rectangle/point intersection test. -/
def Rect.containsPoint (r : Rect) (px py : Int) : Bool :=
  decide ((r.x ≤ px ∧ px ≤ r.xx) ∧ (r.y ≤ py ∧ py ≤ r.yy))

/-- QTNode.containsRect: the cell (a unit square, width = height = 1) is
fully contained in the node bounding box; both corners are tested. -/
def Rect.containsRect (r : Rect) (c : Cell) : Bool :=
  r.containsPoint c.row c.col && r.containsPoint (c.row + 1) (c.col + 1)

/-- QTNode.intersectsAABB: axis-aligned bounding box intersection test. -/
def Rect.intersectsAABB (r : Rect) (x y xx yy : Int) : Bool :=
  decide ((r.x ≤ xx ∧ r.xx ≥ x) ∧ (r.y ≤ yy ∧ r.yy ≥ y))

/-- Math.ceil(d / 2) for an integer d (the halves appearing in
QTNode.subdivide): the ceiling of d / 2 equals floor division of d + 1
by 2. -/
def ceilHalf (d : Int) : Int := (d + 1) / 2

/-- QTNode.area as computed by the source: Math.abs(xx) - Math.abs(x)
times Math.abs(yy) - Math.abs(y).  Note this is not (xx - x) * (yy - y)
when coordinates are negative. -/
def rectArea (r : Rect) : Int := (|r.xx| - |r.x|) * (|r.yy| - |r.y|)

/-- The horizontal split point p of QTNode.subdivide:
x + Math.ceil((Math.abs(xx) - Math.abs(x)) / 2). -/
def hmid (r : Rect) : Int := r.x + ceilHalf (|r.xx| - |r.x|)

/-- The vertical split point q of QTNode.subdivide:
y + Math.ceil((Math.abs(yy) - Math.abs(y)) / 2). -/
def vmid (r : Rect) : Int := r.y + ceilHalf (|r.yy| - |r.y|)

/-- A node of the pointer-based quadtree (class QTNode).  A node is either
not subdivided (leaf: the four children are null) or subdivided (branch:
all four children present, created together by subdivide()).  The index
field is the optional reference into the owning tree's leaves array; the
id field is only used for debugging and is not modelled. -/
inductive QTNode where
  | leaf (rect : Rect) (index : Option Nat) : QTNode
  | branch (rect : Rect) (index : Option Nat)
      (upperLeft upperRight lowerLeft lowerRight : QTNode) : QTNode
deriving DecidableEq, Repr

/-- The rect field of a node. -/
def QTNode.rect : QTNode → Rect
  | .leaf r _ => r
  | .branch r _ _ _ _ _ => r

/-- The index field of a node. -/
def QTNode.index : QTNode → Option Nat
  | .leaf _ i => i
  | .branch _ i _ _ _ _ => i

/-- The subdivided flag of a node. -/
def QTNode.subdivided : QTNode → Bool
  | .leaf _ _ => false
  | .branch _ _ _ _ _ _ => true

/-- The area field, assigned from QTNode.area() at construction (the rect
of a node is never mutated in the modelled fragment, so computing it on
demand is equivalent). -/
def QTNode.area (n : QTNode) : Int := rectArea n.rect

/-- The upperLeft child, when the node has been subdivided. -/
def QTNode.upperLeft : QTNode → Option QTNode
  | .leaf _ _ => none
  | .branch _ _ ul _ _ _ => some ul

/-- QTNode.setLeaf: store a leaf index on the node. -/
def QTNode.setLeaf : QTNode → Nat → QTNode
  | .leaf r _, i => .leaf r (some i)
  | .branch r _ ul ur ll lr, i => .branch r (some i) ul ur ll lr

/-- QTNode.subdivide: split the bounding box into four quadrants at the
point (p, q).  Subdividing an already subdivided node is a no-op. -/
def QTNode.subdivide : QTNode → QTNode
  | .leaf r i =>
      .branch r i
        (.leaf ⟨r.x, r.y, hmid r, vmid r⟩ none)
        (.leaf ⟨hmid r, r.y, r.xx, vmid r⟩ none)
        (.leaf ⟨r.x, vmid r, hmid r, r.yy⟩ none)
        (.leaf ⟨hmid r, vmid r, r.xx, r.yy⟩ none)
  | .branch r i ul ur ll lr => .branch r i ul ur ll lr

/-- All nodes of a subtree, the node itself included. -/
def QTNode.nodes : QTNode → List QTNode
  | .leaf r i => [.leaf r i]
  | .branch r i ul ur ll lr =>
      .branch r i ul ur ll lr :: (ul.nodes ++ ur.nodes ++ ll.nodes ++ lr.nodes)

/-- An axis-aligned bounding box of a set of cells, given by two points. -/
structure AABB where
  rowMin : Int
  colMin : Int
  rowMax : Int
  colMax : Int
deriving DecidableEq, Repr

/-- emptyAABB: the degenerate all-zero bounding box. -/
def emptyAABB : AABB := ⟨0, 0, 0, 0⟩

/-- buildAxisAlignedBoundingBox: bounding box of a nonempty cell array; the
max corner is increased by one on both axes to include the farthest cell.
The source reads cells[0] first, so it is only ever invoked on a nonempty
array (index() guards with length > 0); the [] case is unreachable there
and returns the empty box. -/
def buildAxisAlignedBoundingBox (cells : List Cell) : AABB :=
  match cells with
  | [] => emptyAABB
  | c0 :: _ =>
      ⟨cells.foldl (fun m c => min m c.row) c0.row,
       cells.foldl (fun m c => min m c.col) c0.col,
       cells.foldl (fun m c => max m c.row) c0.row + 1,
       cells.foldl (fun m c => max m c.col) c0.col + 1⟩

/-- addCell: recursively add a cell to the tree.  If the node does not
contain the cell, return unchanged; if the node area is at most the
minimum cell size, tag the node with the leaf index; otherwise subdivide
(if needed) and recurse into all four children.  The fuel bounds the
recursion depth; none models the divergence of the JS recursion. -/
def addCell : Nat → Int → QTNode → Cell → Nat → Option QTNode
  | 0, _, _, _, _ => none
  | fuel + 1, minimumCellSize, node, cell, idx =>
      if node.rect.containsRect cell then
        if node.area ≤ minimumCellSize then some (node.setLeaf idx)
        else
          match node.subdivide with
          | .leaf r i => some (.leaf r i)
          | .branch r i ul ur ll lr =>
              match addCell fuel minimumCellSize ul cell idx,
                    addCell fuel minimumCellSize ur cell idx,
                    addCell fuel minimumCellSize ll cell idx,
                    addCell fuel minimumCellSize lr cell idx with
              | some ul', some ur', some ll', some lr' =>
                  some (.branch r i ul' ur' ll' lr')
              | _, _, _, _ => none
      else some node

/-- The leaves.forEach((cell, index) => addCell(...)) loop of
QuadTree.index, threading the updated root and the running index. -/
def addCells (fuel : Nat) (minimumCellSize : Int) :
    QTNode → List Cell → Nat → Option QTNode
  | node, [], _ => some node
  | node, cell :: rest, idx =>
      match addCell fuel minimumCellSize node cell idx with
      | none => none
      | some node' => addCells fuel minimumCellSize node' rest (idx + 1)

/-- validIndex: the optional index is a number within the array bounds. -/
def validIndex (leaves : List Cell) (index : Option Nat) : Bool :=
  match index with
  | some i => decide (i < leaves.length)
  | none => false

/-- The pointer-based 2D spatial quadtree (class QuadTree): the ordered
leaves array of alive cells and the optional root node. -/
structure QuadTree where
  leaves : List Cell
  root : Option QTNode
  minimumCellSize : Int
deriving DecidableEq, Repr

/-- QuadTree.aliveCellsCount: the length of the leaves array. -/
def QuadTree.aliveCellsCount (t : QuadTree) : Nat := t.leaves.length

/-- QuadTree.empty: new QuadTree([]), root null, minimumCellSize 1. -/
def QuadTree.empty : QuadTree := ⟨[], none, 1⟩

/-- QuadTree.clear: recursively delete all nodes, null the root and empty
the leaves. -/
def QuadTree.clear (t : QuadTree) : QuadTree := ⟨[], none, t.minimumCellSize⟩

/-- QuadTree.index: optionally replace the leaves, compute the bounding
box (degenerate empty box for an empty leaves array), create the root and
addCell every leaf with its index.  none models divergence of the addCell
recursion (never reached with sufficient fuel). -/
def QuadTree.index (fuel : Nat) (t : QuadTree) (liveCells : Option (List Cell)) :
    Option QuadTree :=
  let leaves := match liveCells with
    | some l => l
    | none => t.leaves
  let boundary := if leaves.length > 0 then buildAxisAlignedBoundingBox leaves
    else emptyAABB
  let root0 : QTNode := .leaf ⟨boundary.rowMin, boundary.colMin,
    boundary.rowMax, boundary.colMax⟩ none
  match addCells fuel t.minimumCellSize root0 leaves 0 with
  | none => none
  | some root => some ⟨leaves, some root, t.minimumCellSize⟩

/-- The recursive body of QuadTree.search.  At a node of minimal area the
search ends, returning the node iff it contains the cell and carries an
index; at a non-subdivided node it ends with null; otherwise it descends
into the child selected by comparing the cell's right and lower boundary
(row + width, col + height, with width = height = 1) against the far
corner of the upperLeft child. -/
def searchGo (minimumCellSize : Int) (cell : Cell) : QTNode → Option QTNode
  | .leaf r i =>
      if rectArea r = minimumCellSize then
        if r.containsRect cell && i.isSome then some (.leaf r i) else none
      else none
  | .branch r i ul ur ll lr =>
      if rectArea r = minimumCellSize then
        if r.containsRect cell && i.isSome then some (.branch r i ul ur ll lr)
        else none
      else
        if cell.row + 1 ≤ ul.rect.xx then
          if cell.col + 1 ≤ ul.rect.yy then searchGo minimumCellSize cell ul
          else searchGo minimumCellSize cell ll
        else
          if cell.col + 1 ≤ ul.rect.yy then searchGo minimumCellSize cell ur
          else searchGo minimumCellSize cell lr

/-- QuadTree.search: throws on a null root, otherwise runs the recursive
descent from the root. -/
def QuadTree.search (t : QuadTree) (cell : Cell) : Except String (Option QTNode) :=
  match t.root with
  | none => .error "Cannot search a null tree."
  | some root => .ok (searchGo t.minimumCellSize cell root)

/-- QuadTree.findCellIfAlive: search for the cell at (row, col); if a leaf
node with a valid index is found return the indexed cell from the leaves
array, otherwise return the DeadCell singleton.  The query cell is
new Cell(row, col), defaults age 0 and state ALIVE. -/
def QuadTree.findCellIfAlive (t : QuadTree) (row col : Int) :
    Except String FoundCell :=
  match t.search ⟨row, col, 0, .alive⟩ with
  | .error e => .error e
  | .ok found =>
      match found with
      | some node =>
          match node.index with
          | some i =>
              match t.leaves.get? i with
              | some indexedCell => .ok (.cell indexedCell)
              | none => .ok .deadCell
          | none => .ok .deadCell
      | none => .ok .deadCell

/-- The recursive body of QuadTree.findAliveInArea: prune subtrees whose
box does not intersect the query; at a non-subdivided node include the
referenced cell when the index is valid and the cell lies inside the
query rectangle. -/
def findGo (leaves : List Cell) (x y xx yy : Int) : QTNode → List Cell
  | .leaf r i =>
      if r.intersectsAABB x y xx yy then
        match i with
        | some j =>
            match leaves.get? j with
            | some cell => if cell.isInsideRect x y xx yy then [cell] else []
            | none => []
        | none => []
      else []
  | .branch r _ ul ur ll lr =>
      if r.intersectsAABB x y xx yy then
        findGo leaves x y xx yy ul ++ findGo leaves x y xx yy ur ++
          findGo leaves x y xx yy ll ++ findGo leaves x y xx yy lr
      else []

/-- QuadTree.findAliveInArea: throws on a null root, otherwise runs the
recursive range query from the root. -/
def QuadTree.findAliveInArea (t : QuadTree) (x y xx yy : Int) :
    Except String (List Cell) :=
  match t.root with
  | none => .error "Cannot perform a range query on an empty node."
  | some root => .ok (findGo t.leaves x y xx yy root)

/-- QuadTree.clone: a deep copy; a null or undefined argument yields a
fresh empty tree, otherwise the leaves are cloned and the copy is
re-indexed. -/
def QuadTree.clone (fuel : Nat) : Option QuadTree → Option QuadTree
  | none => some QuadTree.empty
  | some tree =>
      let clonedCells := tree.leaves.map Cell.clone
      QuadTree.index fuel ⟨clonedCells, none, 1⟩ none

/-- findAliveNeighbors: count of alive cells in the 3 x 3 window centered
at (row, col), the center itself excluded. -/
def findAliveNeighbors (tree : QuadTree) (row col : Int) : Except String Nat :=
  match tree.findAliveInArea (row - 1) (col - 1) (row + 1) (col + 1) with
  | .error e => .error e
  | .ok aliveCells =>
      .ok (aliveCells.foldl
        (fun count cell =>
          if ¬(cell.row = row ∧ cell.col = col) then count + 1 else count) 0)

/-- Standard rule evaluator.  Modelled from the spec: CellEvaluator.js is
not under src/; the spec gives next = ALIVE iff (state = ALIVE and
neighbors in {2,3}) or (state = DEAD and neighbors = 3), else DEAD. -/
def standardEvaluator (aliveNeighbors : Nat) (currentState : CellState) : CellState :=
  if (currentState = .alive ∧ (aliveNeighbors = 2 ∨ aliveNeighbors = 3)) ∨
      (currentState = .dead ∧ aliveNeighbors = 3) then .alive else .dead

/-- The body of one (row, col) iteration of GameManager.evaluateCells:
count the alive neighbors, look the cell up in the current tree (DeadCell
if not alive), evaluate the rule; when the next state is ALIVE produce
new Cell(row, col, foundCell.age + 1) (state defaults to ALIVE). -/
def evalPos (tree : QuadTree) (evaluator : Nat → CellState → CellState)
    (row col : Int) : Except String (Option Cell) :=
  match findAliveNeighbors tree row col with
  | .error e => .error e
  | .ok aliveNeighbors =>
      match tree.findCellIfAlive row col with
      | .error e => .error e
      | .ok foundCell =>
          if evaluator aliveNeighbors foundCell.getState = .alive then
            .ok (some ⟨row, col, foundCell.age + 1, .alive⟩)
          else .ok none

/-- Evaluate a list of positions in order, collecting the produced cells
in order (the nextAliveCells.push calls of the scan loop). -/
def evalPositions (tree : QuadTree) (evaluator : Nat → CellState → CellState) :
    List (Int × Int) → Except String (List Cell)
  | [] => .ok []
  | (row, col) :: rest =>
      match evalPos tree evaluator row col with
      | .error e => .error e
      | .ok produced =>
          match evalPositions tree evaluator rest with
          | .error e => .error e
          | .ok tail =>
              .ok (match produced with
                | some cell => cell :: tail
                | none => tail)

/-- The row-major traversal order of the evaluateCells scan: for every row
below width, every col below height. -/
def landscapePositions (width height : Nat) : List (Int × Int) :=
  (List.range width).flatMap
    (fun row => (List.range height).map (fun col => ((row : Int), (col : Int))))

/-- The next-generation list built by the full scan of
GameManager.evaluateCells (step 1 of the method). -/
def evaluateCellsList (tree : QuadTree) (evaluator : Nat → CellState → CellState)
    (width height : Nat) : Except String (List Cell) :=
  evalPositions tree evaluator (landscapePositions width height)

/-- The simulation orchestrator (class GameManager): the landscape
dimensions from the config and the two generation trees. -/
structure GameManager where
  width : Nat
  height : Nat
  currentTree : QuadTree
  nextTree : QuadTree
deriving DecidableEq, Repr

/-- GameManager.evaluateCells: scan the landscape against currentTree
building the next-generation list, then clear nextTree and re-index it
from that list (the scene registration has no effect on the game state
and is not modelled).  The outer none models addCell divergence. -/
def GameManager.evaluateCells (fuel : Nat) (gm : GameManager)
    (evaluator : Nat → CellState → CellState) :
    Option (Except String GameManager) :=
  match evaluateCellsList gm.currentTree evaluator gm.width gm.height with
  | .error e => some (.error e)
  | .ok nextAliveCells =>
      match QuadTree.index fuel gm.nextTree.clear (some nextAliveCells) with
      | none => none
      | some nt => some (.ok { gm with nextTree := nt })

/-- GameManager.activateNext: currentTree becomes QuadTree.clone(nextTree)
and nextTree is cleared and re-indexed (empty).  none models addCell
divergence inside the clone's re-index. -/
def GameManager.activateNext (fuel : Nat) (gm : GameManager) : Option GameManager :=
  match QuadTree.clone fuel (some gm.nextTree) with
  | none => none
  | some cur =>
      match QuadTree.index fuel gm.nextTree.clear none with
      | none => none
      | some nxt => some { gm with currentTree := cur, nextTree := nxt }

/-! ### Arithmetic helper lemmas -/

lemma ceilHalf_eq_ceil (d : Int) : ceilHalf d = ⌈(d : ℚ) / 2⌉ := by
  have hub : d ≤ 2 * ceilHalf d := by unfold ceilHalf; omega
  have hlb : 2 * ceilHalf d ≤ d + 1 := by unfold ceilHalf; omega
  symm
  rw [Int.ceil_eq_iff]
  constructor
  · rw [lt_div_iff₀ (by norm_num : (0:ℚ) < 2)]
    have h : ((2 * ceilHalf d : Int) : ℚ) ≤ ((d + 1 : Int) : ℚ) := by exact_mod_cast hlb
    push_cast at h ⊢
    linarith
  · rw [div_le_iff₀ (by norm_num : (0:ℚ) < 2)]
    have h : ((d : Int) : ℚ) ≤ ((2 * ceilHalf d : Int) : ℚ) := by exact_mod_cast hub
    push_cast at h ⊢
    linarith

/-! ### C6: the stored node area -/

/-- C6, counterexample: a QTNode with bounds (-2, 0, 1, 1) stores
area (|1| - |-2|) * (|1| - |0|) = -1, not |1 - (-2)| * |1 - 0| = 3,
so the claimed area formula fails on negative bounds. -/
theorem qtnode_area_formula_cex :
    QTNode.area (.leaf ⟨-2, 0, 1, 1⟩ none) = -1 ∧
    |(1 : Int) - (-2)| * |(1 : Int) - 0| = 3 ∧ ((-1 : Int) ≠ 3) := by
  decide

/-- C6 (amended): for every QTNode constructed with nonnegative ordered
bounds 0 ≤ x ≤ xx and 0 ≤ y ≤ yy, the stored area equals
|xx - x| * |yy - y|.  (In general the source computes
(|xx| - |x|) * (|yy| - |y|), which differs on negative bounds.) -/
theorem qtnode_area_nonneg_bounds (x y xx yy : Int) (i : Option Nat)
    (hx : 0 ≤ x) (hy : 0 ≤ y) (hxx : x ≤ xx) (hyy : y ≤ yy) :
    QTNode.area (.leaf ⟨x, y, xx, yy⟩ i) = |xx - x| * |yy - y| := by
  have h1 : |xx| = xx := abs_of_nonneg (le_trans hx hxx)
  have h2 : |x| = x := abs_of_nonneg hx
  have h3 : |yy| = yy := abs_of_nonneg (le_trans hy hyy)
  have h4 : |y| = y := abs_of_nonneg hy
  have h5 : |xx - x| = xx - x := abs_of_nonneg (by omega)
  have h6 : |yy - y| = yy - y := abs_of_nonneg (by omega)
  simp only [QTNode.area, rectArea, QTNode.rect, h1, h2, h3, h4, h5, h6]

/-- Witness for the amended C6 at the concrete node (0, 1, 3, 4). -/
theorem qtnode_area_nonneg_bounds_witness :
    ((0 : Int) ≤ 0 ∧ (0 : Int) ≤ 1 ∧ (0 : Int) ≤ 3 ∧ (1 : Int) ≤ 4) ∧
    QTNode.area (.leaf ⟨0, 1, 3, 4⟩ none) = |(3 : Int) - 0| * |(4 : Int) - 1| :=
  ⟨by decide, qtnode_area_nonneg_bounds 0 1 3 4 none (by decide) (by decide)
    (by decide) (by decide)⟩

/-! ### C7: the subdivision split point -/

/-- C7, counterexample: subdividing the node with bounds (-2, 0, 1, 2)
produces the horizontal split point p = -2 + ceil((|1| - |-2|) / 2) = -2,
not the claimed p = -2 + ceil((1 - (-2)) / 2) = 0; the upperLeft child is
(-2, 0, -2, 1) instead of (-2, 0, 0, 1). -/
theorem qtnode_subdivide_split_cex :
    QTNode.subdivide (.leaf ⟨-2, 0, 1, 2⟩ none) =
      .branch ⟨-2, 0, 1, 2⟩ none
        (.leaf ⟨-2, 0, -2, 1⟩ none) (.leaf ⟨-2, 0, 1, 1⟩ none)
        (.leaf ⟨-2, 1, -2, 2⟩ none) (.leaf ⟨-2, 1, 1, 2⟩ none) ∧
    ((-2 : Int) ≠ -2 + ⌈((1 - (-2) : Int) : ℚ) / 2⌉) := by
  constructor
  · decide
  · have h : ((3 : Int) : ℚ) = ((3 : ℚ)) := by norm_num
    have h2 : ⌈((3 : Int) : ℚ) / 2⌉ = ceilHalf 3 := (ceilHalf_eq_ceil 3).symm
    have h3 : ceilHalf 3 = 2 := by decide
    intro hcon
    rw [show ((1 - (-2) : Int) : ℚ) = ((3 : Int) : ℚ) by norm_num, h2, h3] at hcon
    omega

/-- C7 (amended): for every not yet subdivided QTNode with nonnegative
bounds (0 ≤ x, 0 ≤ xx, 0 ≤ y, 0 ≤ yy), subdivide() splits at the point
(p, q) with p = x + ceil((xx - x) / 2) and q = y + ceil((yy - y) / 2),
with children upperLeft = (x, y, p, q), upperRight = (p, y, xx, q),
lowerLeft = (x, q, p, yy), lowerRight = (p, q, xx, yy).  (In general the
source computes p from |xx| - |x|, which differs on negative bounds.) -/
theorem qtnode_subdivide_nonneg_bounds (x y xx yy : Int) (i : Option Nat)
    (hx : 0 ≤ x) (hy : 0 ≤ y) (hxx : 0 ≤ xx) (hyy : 0 ≤ yy) :
    QTNode.subdivide (.leaf ⟨x, y, xx, yy⟩ i) =
      .branch ⟨x, y, xx, yy⟩ i
        (.leaf ⟨x, y, x + ⌈((xx - x : Int) : ℚ) / 2⌉, y + ⌈((yy - y : Int) : ℚ) / 2⌉⟩ none)
        (.leaf ⟨x + ⌈((xx - x : Int) : ℚ) / 2⌉, y, xx, y + ⌈((yy - y : Int) : ℚ) / 2⌉⟩ none)
        (.leaf ⟨x, y + ⌈((yy - y : Int) : ℚ) / 2⌉, x + ⌈((xx - x : Int) : ℚ) / 2⌉, yy⟩ none)
        (.leaf ⟨x + ⌈((xx - x : Int) : ℚ) / 2⌉, y + ⌈((yy - y : Int) : ℚ) / 2⌉, xx, yy⟩ none) := by
  have hp : hmid ⟨x, y, xx, yy⟩ = x + ⌈((xx - x : Int) : ℚ) / 2⌉ := by
    unfold hmid
    rw [show |(⟨x, y, xx, yy⟩ : Rect).xx| - |(⟨x, y, xx, yy⟩ : Rect).x| = xx - x by
      simp only [abs_of_nonneg hx, abs_of_nonneg hxx]]
    rw [ceilHalf_eq_ceil]
  have hq : vmid ⟨x, y, xx, yy⟩ = y + ⌈((yy - y : Int) : ℚ) / 2⌉ := by
    unfold vmid
    rw [show |(⟨x, y, xx, yy⟩ : Rect).yy| - |(⟨x, y, xx, yy⟩ : Rect).y| = yy - y by
      simp only [abs_of_nonneg hy, abs_of_nonneg hyy]]
    rw [ceilHalf_eq_ceil]
  simp only [QTNode.subdivide, hp, hq]

/-- Witness for the amended C7 at the concrete node (0, 0, 3, 2). -/
theorem qtnode_subdivide_nonneg_bounds_witness :
    ((0 : Int) ≤ 0 ∧ (0 : Int) ≤ 3 ∧ (0 : Int) ≤ 2) ∧
    QTNode.subdivide (.leaf ⟨0, 0, 3, 2⟩ none) =
      .branch ⟨0, 0, 3, 2⟩ none
        (.leaf ⟨0, 0, 0 + ⌈((3 - 0 : Int) : ℚ) / 2⌉, 0 + ⌈((2 - 0 : Int) : ℚ) / 2⌉⟩ none)
        (.leaf ⟨0 + ⌈((3 - 0 : Int) : ℚ) / 2⌉, 0, 3, 0 + ⌈((2 - 0 : Int) : ℚ) / 2⌉⟩ none)
        (.leaf ⟨0, 0 + ⌈((2 - 0 : Int) : ℚ) / 2⌉, 0 + ⌈((3 - 0 : Int) : ℚ) / 2⌉, 2⟩ none)
        (.leaf ⟨0 + ⌈((3 - 0 : Int) : ℚ) / 2⌉, 0 + ⌈((2 - 0 : Int) : ℚ) / 2⌉, 3, 2⟩ none) :=
  ⟨by decide, qtnode_subdivide_nonneg_bounds 0 0 3 2 none (by decide) (by decide)
    (by decide) (by decide)⟩

/-! ### C8: queries against an unindexed (null root) tree throw -/

/-- C8: for every tree whose root is null, search and findAliveInArea
both fail with a thrown error rather than returning a value. -/
theorem null_root_queries_throw (t : QuadTree) (cell : Cell) (x y xx yy : Int)
    (h : t.root = none) :
    t.search cell = .error "Cannot search a null tree." ∧
    t.findAliveInArea x y xx yy =
      .error "Cannot perform a range query on an empty node." := by
  simp [QuadTree.search, QuadTree.findAliveInArea, h]

/-- Witness for C8 on the freshly constructed empty tree. -/
theorem null_root_queries_throw_witness :
    QuadTree.empty.root = none ∧
    (QuadTree.empty.search ⟨0, 0, 0, .alive⟩ = .error "Cannot search a null tree." ∧
     QuadTree.empty.findAliveInArea 0 0 1 1 =
       .error "Cannot perform a range query on an empty node.") :=
  ⟨rfl, null_root_queries_throw QuadTree.empty ⟨0, 0, 0, .alive⟩ 0 0 1 1 rfl⟩

/-! ### C10: cloning a null tree -/

/-- C10: QuadTree.clone applied to a null (or undefined) argument returns
a fresh empty tree with an empty leaves sequence and a null root, and
aliveCellsCount() of that result is 0. -/
theorem clone_null_returns_empty (fuel : Nat) :
    QuadTree.clone fuel none = some QuadTree.empty ∧
    QuadTree.empty.leaves = [] ∧ QuadTree.empty.root = none ∧
    QuadTree.empty.aliveCellsCount = 0 :=
  ⟨rfl, rfl, rfl, rfl⟩

deriving instance DecidableEq for Except

/-! ### C9: missed lookups return the DeadCell sentinel -/

/-- C9: on an indexed tree (root present), whenever the point search finds
no leaf node, or finds a node whose index is not a valid position in the
leaves sequence, findCellIfAlive returns the reserved frozen DeadCell
sentinel (state DEAD, both coordinates Infinity, age 0) rather than null
or an error; and findAliveInArea excludes a non-subdivided node with an
invalid index from its results rather than failing. -/
theorem lookup_miss_returns_deadcell (t : QuadTree) (row col : Int) (n : QTNode)
    (hroot : t.root = some n)
    (hmiss : ∀ nd, searchGo t.minimumCellSize ⟨row, col, 0, .alive⟩ n = some nd →
      ∀ i, nd.index = some i → t.leaves.length ≤ i) :
    t.findCellIfAlive row col = .ok .deadCell ∧
    FoundCell.getState .deadCell = .dead ∧
    FoundCell.locationRow .deadCell = .infinity ∧
    FoundCell.locationCol .deadCell = .infinity ∧
    FoundCell.age .deadCell = 0 ∧
    (∀ (leaves : List Cell) (x y xx yy : Int) (r : Rect) (idx : Option Nat),
      validIndex leaves idx = false →
      findGo leaves x y xx yy (.leaf r idx) = []) := by
  refine ⟨?_, rfl, rfl, rfl, rfl, ?_⟩
  · unfold QuadTree.findCellIfAlive QuadTree.search
    rw [hroot]
    cases hs : searchGo t.minimumCellSize ⟨row, col, 0, .alive⟩ n with
    | none => simp [hs]
    | some nd =>
        cases hi : nd.index with
        | none => simp [hs, hi]
        | some i =>
            have hlen : t.leaves.length ≤ i := hmiss nd hs i hi
            have hg : t.leaves[i]? = none := by
              simpa [List.get?_eq_getElem?] using List.get?_eq_none.mpr hlen
            simp [hs, hi, hg]
  · intro leaves x y xx yy r idx hinv
    unfold findGo
    cases idx with
    | none => simp
    | some j =>
        have hj : ¬ j < leaves.length := by
          simpa [validIndex] using hinv
        have hg : leaves[j]? = none := by
          simpa [List.get?_eq_getElem?] using
            List.get?_eq_none.mpr (show leaves.length ≤ j by omega)
        simp [hg]

/-- Witness for C9: a concrete indexed single-cell tree queried at the
absent coordinate (5, 5). -/
theorem lookup_miss_returns_deadcell_witness :
    (⟨[⟨0, 0, 1, .alive⟩], some (.leaf ⟨0, 0, 1, 1⟩ (some 0)), 1⟩ : QuadTree).root =
      some (.leaf ⟨0, 0, 1, 1⟩ (some 0)) ∧
    ((⟨[⟨0, 0, 1, .alive⟩], some (.leaf ⟨0, 0, 1, 1⟩ (some 0)), 1⟩ : QuadTree).findCellIfAlive
      5 5 = .ok .deadCell ∧
     FoundCell.getState .deadCell = .dead ∧
     FoundCell.locationRow .deadCell = .infinity ∧
     FoundCell.locationCol .deadCell = .infinity ∧
     FoundCell.age .deadCell = 0 ∧
     (∀ (leaves : List Cell) (x y xx yy : Int) (r : Rect) (idx : Option Nat),
       validIndex leaves idx = false →
       findGo leaves x y xx yy (.leaf r idx) = [])) :=
  ⟨rfl, lookup_miss_returns_deadcell _ 5 5 (.leaf ⟨0, 0, 1, 1⟩ (some 0)) rfl
    (by
      intro nd h
      rw [show searchGo (1 : Int) ⟨5, 5, 0, .alive⟩ (.leaf ⟨0, 0, 1, 1⟩ (some 0)) = none
        from by decide] at h
      exact Option.noConfusion h)⟩

/-! ### Counterexamples on negative coordinates: C1, C2, C5 -/

/-- C1, counterexample: for the singleton list [Cell(-2, 0)] (distinct
coordinates trivially hold), index() succeeds, yet search of that very
cell returns null rather than a leaf node: the root rect is
(-2, 0, -1, 1) with stored area -1, which never compares equal to the
minimum cell size 1. -/
theorem index_search_negative_cex :
    QuadTree.index 4 QuadTree.empty (some [⟨-2, 0, 0, .alive⟩]) =
      some ⟨[⟨-2, 0, 0, .alive⟩], some (.leaf ⟨-2, 0, -1, 1⟩ (some 0)), 1⟩ ∧
    QuadTree.search
      ⟨[⟨-2, 0, 0, .alive⟩], some (.leaf ⟨-2, 0, -1, 1⟩ (some 0)), 1⟩
      ⟨-2, 0, 0, .alive⟩ = .ok none := by
  constructor
  · decide
  · decide

/-- C2, counterexample: for the two-cell list [Cell(-2, 0), Cell(-2, 4)]
(distinct coordinates), both insertions tag the single root node (stored
area -5 which is at most the minimum cell size), the second overwriting
the first; the range query covering both cells returns only Cell(-2, 4),
omitting Cell(-2, 0) even though it lies inside the query rectangle. -/
theorem findAliveInArea_negative_cex :
    QuadTree.index 4 QuadTree.empty
      (some [⟨-2, 0, 0, .alive⟩, ⟨-2, 4, 0, .alive⟩]) =
      some ⟨[⟨-2, 0, 0, .alive⟩, ⟨-2, 4, 0, .alive⟩],
        some (.leaf ⟨-2, 0, -1, 5⟩ (some 1)), 1⟩ ∧
    QuadTree.findAliveInArea
      ⟨[⟨-2, 0, 0, .alive⟩, ⟨-2, 4, 0, .alive⟩],
        some (.leaf ⟨-2, 0, -1, 5⟩ (some 1)), 1⟩ (-2) 0 (-1) 5 =
      .ok [⟨-2, 4, 0, .alive⟩] ∧
    Cell.isInsideRect ⟨-2, 0, 0, .alive⟩ (-2) 0 (-1) 5 = true ∧
    (⟨-2, 0, 0, .alive⟩ : Cell) ∈ [(⟨-2, 0, 0, .alive⟩ : Cell), ⟨-2, 4, 0, .alive⟩] ∧
    ¬ (⟨-2, 0, 0, .alive⟩ : Cell) ∈ [(⟨-2, 4, 0, .alive⟩ : Cell)] ∧
    ¬ ((-2 : Int) = -2 ∧ (0 : Int) = 4) := by
  refine ⟨by decide, by decide, by decide, by decide, by decide, by decide⟩

/-- C5, counterexample: in the tree indexed from [Cell(-2, 0)], the root
node carries leaf index 0 while its stored area is -1, not the minimum
cell size 1. -/
theorem leafIndex_negative_area_cex :
    QuadTree.index 4 QuadTree.empty (some [⟨-2, 0, 0, .alive⟩]) =
      some ⟨[⟨-2, 0, 0, .alive⟩], some (.leaf ⟨-2, 0, -1, 1⟩ (some 0)), 1⟩ ∧
    QTNode.index (.leaf ⟨-2, 0, -1, 1⟩ (some 0)) = some 0 ∧
    QTNode.area (.leaf ⟨-2, 0, -1, 1⟩ (some 0)) = -1 ∧ ((-1 : Int) ≠ 1) := by
  refine ⟨by decide, by decide, by decide, by decide⟩

/-! ### C3 counterexample: a newborn cell gets age 1, not 0 -/

/-- The alive-cell list of the C3 counterexample: an L-triomino on a
2 x 2 landscape. -/
def cexEvalCells : List Cell := [⟨0, 0, 1, .alive⟩, ⟨0, 1, 1, .alive⟩, ⟨1, 0, 1, .alive⟩]

/-- The tree QuadTree.index builds from cexEvalCells (verified below). -/
def cexEvalTree : QuadTree :=
  ⟨cexEvalCells,
   some (.branch ⟨0, 0, 2, 2⟩ none
     (.leaf ⟨0, 0, 1, 1⟩ (some 0)) (.leaf ⟨1, 0, 2, 1⟩ (some 2))
     (.leaf ⟨0, 1, 1, 2⟩ (some 1)) (.leaf ⟨1, 1, 2, 2⟩ none)), 1⟩

/-- C3, counterexample: on the 2 x 2 landscape whose current tree indexes
cexEvalCells, position (1, 1) was not previously alive (the point lookup
returns the DeadCell sentinel) and evaluates to ALIVE under the standard
rule (3 alive neighbors); the cell appended for it has age 1
(DeadCell.age + 1), and no cell of age 0 is appended at (1, 1), so the
claim that such a cell is appended with age 0 is false. -/
theorem evaluateCells_newborn_age_cex :
    QuadTree.index 8 QuadTree.empty (some cexEvalCells) = some cexEvalTree ∧
    evaluateCellsList cexEvalTree standardEvaluator 2 2 =
      .ok [⟨0, 0, 2, .alive⟩, ⟨0, 1, 2, .alive⟩, ⟨1, 0, 2, .alive⟩, ⟨1, 1, 1, .alive⟩] ∧
    cexEvalTree.findCellIfAlive 1 1 = .ok .deadCell ∧
    (⟨1, 1, 1, .alive⟩ : Cell) ∈
      [(⟨0, 0, 2, .alive⟩ : Cell), ⟨0, 1, 2, .alive⟩, ⟨1, 0, 2, .alive⟩, ⟨1, 1, 1, .alive⟩] ∧
    ¬ (⟨1, 1, 0, .alive⟩ : Cell) ∈
      [(⟨0, 0, 2, .alive⟩ : Cell), ⟨0, 1, 2, .alive⟩, ⟨1, 0, 2, .alive⟩, ⟨1, 1, 1, .alive⟩] := by
  refine ⟨by decide, by decide, by decide, by decide, by decide⟩

/-! ### C3 (amended) and C4: the evaluation scan and the generational swap -/

/-- Characterization of a single scan step producing a cell. -/
lemma evalPos_ok_some (tree : QuadTree) (ev : Nat → CellState → CellState)
    (row col : Int) (cell : Cell) :
    evalPos tree ev row col = .ok (some cell) ↔
    ∃ nb fc, findAliveNeighbors tree row col = .ok nb ∧
      tree.findCellIfAlive row col = .ok fc ∧
      ev nb fc.getState = .alive ∧
      cell = ⟨row, col, fc.age + 1, .alive⟩ := by
  unfold evalPos
  cases hn : findAliveNeighbors tree row col with
  | error e => simp
  | ok nb =>
      cases hf : tree.findCellIfAlive row col with
      | error e => simp
      | ok fc =>
          by_cases hev : ev nb fc.getState = .alive
          · simp only [hev, if_pos rfl]
            constructor
            · intro h
              refine ⟨nb, fc, rfl, rfl, hev, ?_⟩
              cases h
              rfl
            · rintro ⟨nb', fc', h1, h2, h3, h4⟩
              cases h1
              cases h2
              rw [h4]
              simp
          · simp only [if_neg hev]
            constructor
            · intro h
              cases h
            · rintro ⟨nb', fc', h1, h2, h3, h4⟩
              cases h1
              cases h2
              exact absurd h3 hev

/-- Soundness and completeness of the position scan with respect to the
single-step evaluation. -/
lemma evalPositions_mem (tree : QuadTree) (ev : Nat → CellState → CellState) :
    ∀ (ps : List (Int × Int)) (l : List Cell),
      evalPositions tree ev ps = .ok l →
      (∀ c ∈ l, ∃ rc ∈ ps, evalPos tree ev rc.1 rc.2 = .ok (some c)) ∧
      (∀ rc ∈ ps, ∀ c, evalPos tree ev rc.1 rc.2 = .ok (some c) → c ∈ l) := by
  intro ps
  induction ps with
  | nil =>
      intro l h
      simp only [evalPositions] at h
      cases h
      constructor
      · intro c hc
        cases hc
      · intro rc hrc
        cases hrc
  | cons rc rest ih =>
      intro l h
      obtain ⟨row, col⟩ := rc
      simp only [evalPositions] at h
      cases hp : evalPos tree ev row col with
      | error e => rw [hp] at h; cases h
      | ok produced =>
          rw [hp] at h
          cases ht : evalPositions tree ev rest with
          | error e => rw [ht] at h; cases h
          | ok tail =>
              rw [ht] at h
              obtain ⟨ihs, ihc⟩ := ih tail ht
              cases produced with
              | some cell =>
                  cases h
                  constructor
                  · intro c hc
                    rcases List.mem_cons.mp hc with hc | hc
                    · exact ⟨(row, col), List.mem_cons_self _ _, by rw [← hc] at hp; exact hp⟩
                    · obtain ⟨rc', hrc', hev'⟩ := ihs c hc
                      exact ⟨rc', List.mem_cons_of_mem _ hrc', hev'⟩
                  · intro rc' hrc' c hev'
                    rcases List.mem_cons.mp hrc' with hrc' | hrc'
                    · rw [hrc'] at hev'
                      simp only at hev'
                      rw [hp] at hev'
                      cases hev'
                      exact List.mem_cons_self _ _
                    · exact List.mem_cons_of_mem _ (ihc rc' hrc' c hev')
              | none =>
                  cases h
                  constructor
                  · intro c hc
                    obtain ⟨rc', hrc', hev'⟩ := ihs c hc
                    exact ⟨rc', List.mem_cons_of_mem _ hrc', hev'⟩
                  · intro rc' hrc' c hev'
                    rcases List.mem_cons.mp hrc' with hrc' | hrc'
                    · rw [hrc'] at hev'
                      simp only at hev'
                      rw [hp] at hev'
                      cases hev'
                    · exact ihc rc' hrc' c hev'

/-- C3 (amended): in evaluateCells, every cell appended to the
next-generation list for a position evaluated to ALIVE has
age = previousAge + 1, where previousAge is the age of the lookup result
at that position; when no cell was previously alive there (the point
lookup returned the DeadCell sentinel, whose age is 0), the appended
cell's age is 1, not 0. -/
theorem evaluateCells_age_increment (tree : QuadTree)
    (ev : Nat → CellState → CellState) (width height : Nat) (l : List Cell)
    (hok : evaluateCellsList tree ev width height = .ok l) :
    (∀ c ∈ l, ∃ nb fc, findAliveNeighbors tree c.row c.col = .ok nb ∧
       tree.findCellIfAlive c.row c.col = .ok fc ∧ ev nb fc.getState = .alive ∧
       c.age = fc.age + 1 ∧ c.state = .alive) ∧
    (∀ rc ∈ landscapePositions width height, ∀ nb fc,
       findAliveNeighbors tree rc.1 rc.2 = .ok nb →
       tree.findCellIfAlive rc.1 rc.2 = .ok fc → ev nb fc.getState = .alive →
       (⟨rc.1, rc.2, fc.age + 1, .alive⟩ : Cell) ∈ l) ∧
    (∀ c ∈ l, tree.findCellIfAlive c.row c.col = .ok .deadCell → c.age = 1) := by
  obtain ⟨hsound, hcomplete⟩ := evalPositions_mem tree ev _ l hok
  refine ⟨?_, ?_, ?_⟩
  · intro c hc
    obtain ⟨rc, _, hev⟩ := hsound c hc
    obtain ⟨nb, fc, h1, h2, h3, h4⟩ := (evalPos_ok_some tree ev rc.1 rc.2 c).mp hev
    rw [h4]
    exact ⟨nb, fc, h1, h2, h3, rfl, rfl⟩
  · intro rc hrc nb fc h1 h2 h3
    exact hcomplete rc hrc _ ((evalPos_ok_some tree ev rc.1 rc.2 _).mpr
      ⟨nb, fc, h1, h2, h3, rfl⟩)
  · intro c hc hdead
    obtain ⟨rc, _, hev⟩ := hsound c hc
    obtain ⟨nb, fc, h1, h2, h3, h4⟩ := (evalPos_ok_some tree ev rc.1 rc.2 c).mp hev
    rw [h4]
    rw [h4] at hdead
    simp only at hdead
    rw [h2] at hdead
    cases hdead
    rfl

/-- Witness for the amended C3 on the concrete 2 x 2 scan of the
counterexample tree. -/
theorem evaluateCells_age_increment_witness :
    evaluateCellsList cexEvalTree standardEvaluator 2 2 =
      .ok [⟨0, 0, 2, .alive⟩, ⟨0, 1, 2, .alive⟩, ⟨1, 0, 2, .alive⟩, ⟨1, 1, 1, .alive⟩] ∧
    ((∀ c ∈ [(⟨0, 0, 2, .alive⟩ : Cell), ⟨0, 1, 2, .alive⟩, ⟨1, 0, 2, .alive⟩, ⟨1, 1, 1, .alive⟩],
        ∃ nb fc, findAliveNeighbors cexEvalTree c.row c.col = .ok nb ∧
          cexEvalTree.findCellIfAlive c.row c.col = .ok fc ∧
          standardEvaluator nb fc.getState = .alive ∧
          c.age = fc.age + 1 ∧ c.state = .alive) ∧
     (∀ rc ∈ landscapePositions 2 2, ∀ nb fc,
        findAliveNeighbors cexEvalTree rc.1 rc.2 = .ok nb →
        cexEvalTree.findCellIfAlive rc.1 rc.2 = .ok fc →
        standardEvaluator nb fc.getState = .alive →
        (⟨rc.1, rc.2, fc.age + 1, .alive⟩ : Cell) ∈
          [(⟨0, 0, 2, .alive⟩ : Cell), ⟨0, 1, 2, .alive⟩, ⟨1, 0, 2, .alive⟩, ⟨1, 1, 1, .alive⟩]) ∧
     (∀ c ∈ [(⟨0, 0, 2, .alive⟩ : Cell), ⟨0, 1, 2, .alive⟩, ⟨1, 0, 2, .alive⟩, ⟨1, 1, 1, .alive⟩],
        cexEvalTree.findCellIfAlive c.row c.col = .ok .deadCell → c.age = 1)) :=
  ⟨by decide, evaluateCells_age_increment cexEvalTree standardEvaluator 2 2 _ (by decide)⟩

/-- The leaves of an indexed tree are exactly the supplied cells (or the
tree's existing leaves when no argument is given). -/
lemma index_leaves (fuel : Nat) (t : QuadTree) (lc : Option (List Cell))
    (t' : QuadTree) (h : QuadTree.index fuel t lc = some t') :
    t'.leaves = (match lc with | some l => l | none => t.leaves) := by
  dsimp only [QuadTree.index] at h
  split at h
  · cases h
  · cases h
    cases lc <;> rfl

/-- Cloning a cell is the identity on its value. -/
lemma cell_clone_eq (c : Cell) : c.clone = c := rfl

/-- Cloning every cell of a list is the identity on the list. -/
lemma map_clone_id (l : List Cell) : l.map Cell.clone = l := by
  induction l with
  | nil => rfl
  | cons c cs ih => simp [ih, cell_clone_eq]

/-- C4: after evaluateCells followed by activateNext, the new current
tree's alive-cell set (its leaves, with coordinates, ages and states)
equals the prior next tree's alive-cell set exactly, and the new next
tree has zero alive cells. -/
theorem activateNext_swaps_generations (fuel₁ fuel₂ : Nat) (gm gm₁ gm₂ : GameManager)
    (ev : Nat → CellState → CellState)
    (hEval : gm.evaluateCells fuel₁ ev = some (.ok gm₁))
    (hAct : gm₁.activateNext fuel₂ = some gm₂) :
    gm₂.currentTree.leaves = gm₁.nextTree.leaves ∧
    gm₂.nextTree.aliveCellsCount = 0 := by
  unfold GameManager.activateNext at hAct
  cases hclone : QuadTree.clone fuel₂ (some gm₁.nextTree) with
  | none => rw [hclone] at hAct; cases hAct
  | some cur =>
      rw [hclone] at hAct
      cases hnxt : QuadTree.index fuel₂ gm₁.nextTree.clear none with
      | none => rw [hnxt] at hAct; cases hAct
      | some nxt =>
          rw [hnxt] at hAct
          cases hAct
          constructor
          · dsimp only [QuadTree.clone] at hclone
            have hl := index_leaves fuel₂ _ none cur hclone
            dsimp only at hl
            rw [hl, map_clone_id]
          · have hl := index_leaves fuel₂ _ none nxt hnxt
            dsimp only [QuadTree.clear] at hl
            simp [QuadTree.aliveCellsCount, hl]

/-- The empty indexed tree used by the C4 witness. -/
def emptyIndexedTree : QuadTree := ⟨[], some (.leaf ⟨0, 0, 0, 0⟩ none), 1⟩

/-- Witness for C4 on a concrete 1 x 1 all-dead world. -/
theorem activateNext_swaps_generations_witness :
    GameManager.evaluateCells 4 ⟨1, 1, emptyIndexedTree, QuadTree.empty⟩ standardEvaluator =
      some (.ok ⟨1, 1, emptyIndexedTree, emptyIndexedTree⟩) ∧
    GameManager.activateNext 4 ⟨1, 1, emptyIndexedTree, emptyIndexedTree⟩ =
      some ⟨1, 1, emptyIndexedTree, emptyIndexedTree⟩ ∧
    ((⟨1, 1, emptyIndexedTree, emptyIndexedTree⟩ : GameManager).currentTree.leaves =
      (⟨1, 1, emptyIndexedTree, emptyIndexedTree⟩ : GameManager).nextTree.leaves ∧
     (⟨1, 1, emptyIndexedTree, emptyIndexedTree⟩ : GameManager).nextTree.aliveCellsCount = 0) :=
  ⟨by decide, by decide,
   activateNext_swaps_generations 4 4 ⟨1, 1, emptyIndexedTree, QuadTree.empty⟩
     ⟨1, 1, emptyIndexedTree, emptyIndexedTree⟩ ⟨1, 1, emptyIndexedTree, emptyIndexedTree⟩
     standardEvaluator (by decide) (by decide)⟩

/-! ### Geometry lemmas for trees over nonnegative coordinates -/

/-- Unfolding of the containment test to linear arithmetic. -/
lemma containsRect_iff (r : Rect) (c : Cell) :
    r.containsRect c = true ↔
    (r.x ≤ c.row ∧ c.row + 1 ≤ r.xx ∧ r.y ≤ c.col ∧ c.col + 1 ≤ r.yy) := by
  simp only [Rect.containsRect, Rect.containsPoint, Bool.and_eq_true, decide_eq_true_eq]
  omega

/-- Unfolding of the cell-in-rectangle test to linear arithmetic. -/
lemma isInsideRect_iff (c : Cell) (x y xx yy : Int) :
    c.isInsideRect x y xx yy = true ↔
    (x ≤ c.row ∧ c.row ≤ xx ∧ y ≤ c.col ∧ c.col ≤ yy) := by
  simp only [Cell.isInsideRect, decide_eq_true_eq]

/-- Unfolding of the box intersection test to linear arithmetic. -/
lemma intersectsAABB_iff (r : Rect) (x y xx yy : Int) :
    r.intersectsAABB x y xx yy = true ↔
    (r.x ≤ xx ∧ r.xx ≥ x ∧ r.y ≤ yy ∧ r.yy ≥ y) := by
  simp only [Rect.intersectsAABB, decide_eq_true_eq]
  omega

/-- A well-formed rectangle for the nonnegative-coordinate fragment:
nonnegative ordered bounds. -/
def Rect.wf (r : Rect) : Prop := 0 ≤ r.x ∧ 0 ≤ r.y ∧ r.x ≤ r.xx ∧ r.y ≤ r.yy

/-- The unit square of a cell: the rectangle an area-1 node containing the
cell must have. -/
def unitRect (c : Cell) : Rect := ⟨c.row, c.col, c.row + 1, c.col + 1⟩

/-- The four quadrant rectangles produced by subdivide. -/
def ulRect (r : Rect) : Rect := ⟨r.x, r.y, hmid r, vmid r⟩

def urRect (r : Rect) : Rect := ⟨hmid r, r.y, r.xx, vmid r⟩

def llRect (r : Rect) : Rect := ⟨r.x, vmid r, hmid r, r.yy⟩

def lrRect (r : Rect) : Rect := ⟨hmid r, vmid r, r.xx, r.yy⟩

lemma subdivide_leaf_eq (r : Rect) (i : Option Nat) :
    QTNode.subdivide (.leaf r i) =
      .branch r i (.leaf (ulRect r) none) (.leaf (urRect r) none)
        (.leaf (llRect r) none) (.leaf (lrRect r) none) := rfl

/-- On nonnegative bounds the stored area is the true area. -/
lemma rectArea_wf (r : Rect) (h : r.wf) : rectArea r = (r.xx - r.x) * (r.yy - r.y) := by
  obtain ⟨h1, h2, h3, h4⟩ := h
  unfold rectArea
  rw [abs_of_nonneg (by omega : (0:Int) ≤ r.xx), abs_of_nonneg h1,
    abs_of_nonneg (by omega : (0:Int) ≤ r.yy), abs_of_nonneg h2]

/-- On nonnegative bounds the horizontal split point is the ceiling-biased
midpoint. -/
lemma hmid_eq (r : Rect) (hx : 0 ≤ r.x) (hxx : 0 ≤ r.xx) :
    hmid r = r.x + (r.xx - r.x + 1) / 2 := by
  unfold hmid ceilHalf
  rw [abs_of_nonneg hxx, abs_of_nonneg hx]

/-- On nonnegative bounds the vertical split point is the ceiling-biased
midpoint. -/
lemma vmid_eq (r : Rect) (hy : 0 ≤ r.y) (hyy : 0 ≤ r.yy) :
    vmid r = r.y + (r.yy - r.y + 1) / 2 := by
  unfold vmid ceilHalf
  rw [abs_of_nonneg hyy, abs_of_nonneg hy]

/-- The split points lie inside the parent rectangle. -/
lemma mid_bounds (r : Rect) (h : r.wf) :
    r.x ≤ hmid r ∧ hmid r ≤ r.xx ∧ r.y ≤ vmid r ∧ vmid r ≤ r.yy := by
  obtain ⟨h1, h2, h3, h4⟩ := h
  rw [hmid_eq r h1 (by omega), vmid_eq r h2 (by omega)]
  omega

/-- The four quadrant rectangles of a well-formed rectangle are
well-formed. -/
lemma quadrants_wf (r : Rect) (h : r.wf) :
    (ulRect r).wf ∧ (urRect r).wf ∧ (llRect r).wf ∧ (lrRect r).wf := by
  have hm := mid_bounds r h
  obtain ⟨h1, h2, h3, h4⟩ := h
  unfold Rect.wf ulRect urRect llRect lrRect
  simp only
  omega

/-- Routing: a cell contained in a well-formed rectangle is contained in
exactly the quadrant chosen by comparing its right and lower boundary
against the split points. -/
lemma routing (r : Rect) (c : Cell) (hwf : r.wf) (hc : r.containsRect c = true) :
    ((ulRect r).containsRect c = true ↔ (c.row + 1 ≤ hmid r ∧ c.col + 1 ≤ vmid r)) ∧
    ((urRect r).containsRect c = true ↔ (¬(c.row + 1 ≤ hmid r) ∧ c.col + 1 ≤ vmid r)) ∧
    ((llRect r).containsRect c = true ↔ (c.row + 1 ≤ hmid r ∧ ¬(c.col + 1 ≤ vmid r))) ∧
    ((lrRect r).containsRect c = true ↔ (¬(c.row + 1 ≤ hmid r) ∧ ¬(c.col + 1 ≤ vmid r))) := by
  have hm := mid_bounds r hwf
  rw [containsRect_iff] at hc
  simp only [containsRect_iff, ulRect, urRect, llRect, lrRect]
  omega

/-- Containment is monotone in the rectangle. -/
lemma containsRect_mono (r r' : Rect) (c : Cell) (hx : r.x ≤ r'.x)
    (hxx : r'.xx ≤ r.xx) (hy : r.y ≤ r'.y) (hyy : r'.yy ≤ r.yy)
    (h : r'.containsRect c = true) : r.containsRect c = true := by
  rw [containsRect_iff] at h ⊢
  omega

/-- A nonempty well-formed rectangle containing a cell has area at
least 1. -/
lemma one_le_area (r : Rect) (c : Cell) (hwf : r.wf) (hc : r.containsRect c = true) :
    1 ≤ rectArea r := by
  rw [rectArea_wf r hwf]
  rw [containsRect_iff] at hc
  have h1 : 1 ≤ r.xx - r.x := by omega
  have h2 : 1 ≤ r.yy - r.y := by omega
  nlinarith

/-- A well-formed rectangle of area at most 1 containing a cell is the
cell's unit square. -/
lemma area_le_one_unit (r : Rect) (c : Cell) (hwf : r.wf)
    (hc : r.containsRect c = true) (harea : rectArea r ≤ 1) : r = unitRect c := by
  rw [rectArea_wf r hwf] at harea
  have hcc := (containsRect_iff r c).mp hc
  have h1 : 1 ≤ r.xx - r.x := by omega
  have h2 : 1 ≤ r.yy - r.y := by omega
  have hmul1 : (r.xx - r.x) * 1 ≤ (r.xx - r.x) * (r.yy - r.y) :=
    mul_le_mul_of_nonneg_left h2 (by omega)
  have hmul2 : 1 * (r.yy - r.y) ≤ (r.xx - r.x) * (r.yy - r.y) :=
    mul_le_mul_of_nonneg_right h1 (by omega)
  have hw : r.xx - r.x = 1 := by nlinarith
  have hh : r.yy - r.y = 1 := by nlinarith
  obtain ⟨x, y, xx, yy⟩ := r
  simp only [unitRect, Rect.mk.injEq]
  simp only at hcc hw hh
  omega

/-- The unit square of a cell with nonnegative coordinates has stored
area exactly 1. -/
lemma rectArea_unitRect (c : Cell) (hr : 0 ≤ c.row) (hc : 0 ≤ c.col) :
    rectArea (unitRect c) = 1 := by
  have hwf : (unitRect c).wf := by
    unfold Rect.wf unitRect
    simp only
    omega
  rw [rectArea_wf _ hwf]
  unfold unitRect
  simp only
  ring

/-- The unit square contains exactly the cells at its own coordinates. -/
lemma containsRect_unitRect_iff (c q : Cell) :
    (unitRect c).containsRect q = true ↔ (q.row = c.row ∧ q.col = c.col) := by
  rw [containsRect_iff]
  unfold unitRect
  simp only
  omega

/-! ### The structural invariant of trees built by insertion -/

/-- Invariant of a subtree relative to the indexed cells (index, cell)
routed into it so far.  A leaf either received nothing and carries no
index, or received exactly one cell and is that cell's unit square
carrying its index.  A branch carries no index, has area above the
minimum cell size, has the four subdivide quadrants as children, and each
child satisfies the invariant for the received cells its rectangle
contains. -/
def TreeInv : QTNode → List (Nat × Cell) → Prop
  | .leaf r i, S => r.wf ∧ (∀ e ∈ S, r.containsRect e.2 = true) ∧
      ((S = [] ∧ i = none) ∨ ∃ j c, S = [(j, c)] ∧ i = some j ∧ r = unitRect c)
  | .branch r i ul ur ll lr, S =>
      r.wf ∧ (∀ e ∈ S, r.containsRect e.2 = true) ∧
      i = none ∧ 1 < rectArea r ∧
      ul.rect = ulRect r ∧ ur.rect = urRect r ∧
      ll.rect = llRect r ∧ lr.rect = lrRect r ∧
      TreeInv ul (S.filter (fun e => ul.rect.containsRect e.2)) ∧
      TreeInv ur (S.filter (fun e => ur.rect.containsRect e.2)) ∧
      TreeInv ll (S.filter (fun e => ll.rect.containsRect e.2)) ∧
      TreeInv lr (S.filter (fun e => lr.rect.containsRect e.2))

/-- The rectangle of a node is preserved by setLeaf. -/
lemma setLeaf_rect (n : QTNode) (j : Nat) : (n.setLeaf j).rect = n.rect := by
  cases n <;> rfl

/-- The rectangle of a node is preserved by addCell. -/
lemma addCell_rect : ∀ (fuel : Nat) (mcs : Int) (n : QTNode) (c : Cell)
    (j : Nat) (n' : QTNode), addCell fuel mcs n c j = some n' → n'.rect = n.rect := by
  intro fuel
  induction fuel with
  | zero => intro mcs n c j n' h; cases h
  | succ fuel ih =>
      intro mcs n c j n' h
      unfold addCell at h
      by_cases hc : n.rect.containsRect c = true
      · rw [if_pos hc] at h
        by_cases ha : n.area ≤ mcs
        · rw [if_pos ha] at h
          cases h
          exact setLeaf_rect n j
        · rw [if_neg ha] at h
          cases n with
          | leaf r i =>
              rw [subdivide_leaf_eq] at h
              simp only at h
              cases h1 : addCell fuel mcs (.leaf (ulRect r) none) c j with
              | none => rw [h1] at h; cases h
              | some ul' =>
                  cases h2 : addCell fuel mcs (.leaf (urRect r) none) c j with
                  | none => rw [h1, h2] at h; cases h
                  | some ur' =>
                      cases h3 : addCell fuel mcs (.leaf (llRect r) none) c j with
                      | none => rw [h1, h2, h3] at h; cases h
                      | some ll' =>
                          cases h4 : addCell fuel mcs (.leaf (lrRect r) none) c j with
                          | none => rw [h1, h2, h3, h4] at h; cases h
                          | some lr' =>
                              rw [h1, h2, h3, h4] at h
                              cases h
                              rfl
          | branch r i ul ur ll lr =>
              simp only [QTNode.subdivide] at h
              cases h1 : addCell fuel mcs ul c j with
              | none => rw [h1] at h; cases h
              | some ul' =>
                  cases h2 : addCell fuel mcs ur c j with
                  | none => rw [h1, h2] at h; cases h
                  | some ur' =>
                      cases h3 : addCell fuel mcs ll c j with
                      | none => rw [h1, h2, h3] at h; cases h
                      | some ll' =>
                          cases h4 : addCell fuel mcs lr c j with
                          | none => rw [h1, h2, h3, h4] at h; cases h
                          | some lr' =>
                              rw [h1, h2, h3, h4] at h
                              cases h
                              rfl
      · rw [if_neg hc] at h
        cases h
        rfl

/-- Filtering a one-element extension. -/
lemma filter_append_singleton (S : List (Nat × Cell)) (p : Nat × Cell → Bool)
    (e : Nat × Cell) :
    (S ++ [e]).filter p = S.filter p ++ (if p e then [e] else []) := by
  rw [List.filter_append]
  congr 1
  cases hpe : p e <;> simp [List.filter, hpe]

/-- Insertion preserves the structural invariant: adding a cell routed by
addCell extends the received list of exactly the subtrees whose rectangles
contain it. -/
lemma addCell_inv : ∀ (fuel : Nat) (n : QTNode) (S : List (Nat × Cell)) (c : Cell)
    (j : Nat) (n' : QTNode),
    TreeInv n S → addCell fuel 1 n c j = some n' →
    (n.rect.containsRect c = false → n' = n) ∧
    (n.rect.containsRect c = true →
      (∀ e ∈ S, ¬(e.2.row = c.row ∧ e.2.col = c.col)) →
      TreeInv n' (S ++ [(j, c)])) := by
  intro fuel
  induction fuel with
  | zero => intro n S c j n' _ h; cases h
  | succ fuel ih =>
      intro n S c j n' hinv h
      unfold addCell at h
      by_cases hc : n.rect.containsRect c = true
      · rw [if_pos hc] at h
        refine ⟨fun hfalse => absurd hc (by simp [hfalse]), fun _ hdist => ?_⟩
        by_cases ha : n.area ≤ 1
        · rw [if_pos ha] at h
          cases h
          cases n with
          | branch r i ul ur ll lr =>
              obtain ⟨hwf, hS, hi, harea, _⟩ := hinv
              exact absurd ha (by simp [QTNode.area, QTNode.rect]; omega)
          | leaf r i =>
              obtain ⟨hwf, hS, hdisj⟩ := hinv
              simp only [QTNode.rect] at hc
              simp only [QTNode.area, QTNode.rect] at ha
              have hunit : r = unitRect c := area_le_one_unit r c hwf hc ha
              have hSnil : S = [] := by
                rcases hdisj with ⟨hSnil, _⟩ | ⟨j₀, c₀, hSeq, hi₀, hr₀⟩
                · exact hSnil
                · exfalso
                  have hmem : (j₀, c₀) ∈ S := by
                    rw [hSeq]; exact List.mem_singleton.mpr rfl
                  have hcoords : c.row = c₀.row ∧ c.col = c₀.col :=
                    (containsRect_unitRect_iff c₀ c).mp (by rw [← hr₀]; exact hc)
                  exact hdist (j₀, c₀) hmem ⟨hcoords.1.symm, hcoords.2.symm⟩
              refine ⟨hwf, ?_, Or.inr ⟨j, c, by simp [hSnil], rfl, hunit⟩⟩
              intro e he
              rcases List.mem_append.mp he with he | he
              · exact hS e he
              · rcases List.mem_singleton.mp he with rfl
                exact hc
        · rw [if_neg ha] at h
          cases n with
          | leaf r i =>
              obtain ⟨hwf, hS, hdisj⟩ := hinv
              simp only [QTNode.rect] at hc
              simp only [QTNode.area, QTNode.rect] at ha
              have hinone : i = none := by
                rcases hdisj with ⟨_, h0⟩ | ⟨j₀, c₀, hSeq, hi₀, hr₀⟩
                · exact h0
                · exfalso
                  have hwf₀ := hwf
                  rw [hr₀] at hwf₀
                  have : rectArea r = 1 := by
                    rw [hr₀]
                    exact rectArea_unitRect c₀ hwf₀.1 hwf₀.2.1
                  omega
              have hSnil : S = [] := by
                rcases hdisj with ⟨h0, _⟩ | ⟨j₀, c₀, hSeq, hi₀, hr₀⟩
                · exact h0
                · exfalso
                  have hwf₀ := hwf
                  rw [hr₀] at hwf₀
                  have : rectArea r = 1 := by
                    rw [hr₀]
                    exact rectArea_unitRect c₀ hwf₀.1 hwf₀.2.1
                  omega
              subst hSnil
              rw [subdivide_leaf_eq] at h
              simp only at h
              have hq := quadrants_wf r hwf
              have invUL : TreeInv (.leaf (ulRect r) none) [] := by
                refine ⟨hq.1, ?_, Or.inl ⟨rfl, rfl⟩⟩
                intro e he
                cases he
              have invUR : TreeInv (.leaf (urRect r) none) [] := by
                refine ⟨hq.2.1, ?_, Or.inl ⟨rfl, rfl⟩⟩
                intro e he
                cases he
              have invLL : TreeInv (.leaf (llRect r) none) [] := by
                refine ⟨hq.2.2.1, ?_, Or.inl ⟨rfl, rfl⟩⟩
                intro e he
                cases he
              have invLR : TreeInv (.leaf (lrRect r) none) [] := by
                refine ⟨hq.2.2.2, ?_, Or.inl ⟨rfl, rfl⟩⟩
                intro e he
                cases he
              cases h1 : addCell fuel 1 (.leaf (ulRect r) none) c j with
              | none => rw [h1] at h; cases h
              | some ul' =>
                  cases h2 : addCell fuel 1 (.leaf (urRect r) none) c j with
                  | none => rw [h1, h2] at h; cases h
                  | some ur' =>
                      cases h3 : addCell fuel 1 (.leaf (llRect r) none) c j with
                      | none => rw [h1, h2, h3] at h; cases h
                      | some ll' =>
                          cases h4 : addCell fuel 1 (.leaf (lrRect r) none) c j with
                          | none => rw [h1, h2, h3, h4] at h; cases h
                          | some lr' =>
                              rw [h1, h2, h3, h4] at h
                              cases h
                              have rul : ul'.rect = ulRect r :=
                                addCell_rect fuel 1 _ c j ul' h1
                              have rur : ur'.rect = urRect r :=
                                addCell_rect fuel 1 _ c j ur' h2
                              have rll : ll'.rect = llRect r :=
                                addCell_rect fuel 1 _ c j ll' h3
                              have rlr : lr'.rect = lrRect r :=
                                addCell_rect fuel 1 _ c j lr' h4
                              have inv' : ∀ (q : Rect) (ch' : QTNode),
                                  addCell fuel 1 (.leaf q none) c j = some ch' →
                                  TreeInv (.leaf q none) [] →
                                  TreeInv ch'
                                    (([(j, c)] : List (Nat × Cell)).filter
                                      (fun e => q.containsRect e.2)) := by
                                intro q ch' hadd hinvq
                                have hk := ih _ [] c j ch' hinvq hadd
                                by_cases hqc : q.containsRect c = true
                                · have := hk.2 (by simpa [QTNode.rect] using hqc)
                                    (by intro e he; cases he)
                                  simpa [List.filter, hqc] using this
                                · have heq := hk.1 (by
                                    simpa [QTNode.rect] using
                                      (Bool.not_eq_true _).mp hqc)
                                  rw [heq]
                                  simpa [List.filter, hqc] using hinvq
                              refine ⟨hwf, ?_, hinone, by omega,
                                rul, rur, rll, rlr, ?_, ?_, ?_, ?_⟩
                              · intro e he
                                rcases List.mem_append.mp he with he | he
                                · cases he
                                · rcases List.mem_singleton.mp he with rfl
                                  exact hc
                              · simp only [List.nil_append]
                                rw [rul]
                                exact inv' _ _ h1 invUL
                              · simp only [List.nil_append]
                                rw [rur]
                                exact inv' _ _ h2 invUR
                              · simp only [List.nil_append]
                                rw [rll]
                                exact inv' _ _ h3 invLL
                              · simp only [List.nil_append]
                                rw [rlr]
                                exact inv' _ _ h4 invLR
          | branch r i ul ur ll lr =>
              obtain ⟨hwf, hS, hi, harea, hul, hur, hll, hlr,
                Tul, Tur, Tll, Tlr⟩ := hinv
              simp only [QTNode.rect] at hc
              simp only [QTNode.subdivide] at h
              cases h1 : addCell fuel 1 ul c j with
              | none => rw [h1] at h; cases h
              | some ul' =>
                  cases h2 : addCell fuel 1 ur c j with
                  | none => rw [h1, h2] at h; cases h
                  | some ur' =>
                      cases h3 : addCell fuel 1 ll c j with
                      | none => rw [h1, h2, h3] at h; cases h
                      | some ll' =>
                          cases h4 : addCell fuel 1 lr c j with
                          | none => rw [h1, h2, h3, h4] at h; cases h
                          | some lr' =>
                              rw [h1, h2, h3, h4] at h
                              cases h
                              have rul : ul'.rect = ul.rect :=
                                addCell_rect fuel 1 _ c j ul' h1
                              have rur : ur'.rect = ur.rect :=
                                addCell_rect fuel 1 _ c j ur' h2
                              have rll : ll'.rect = ll.rect :=
                                addCell_rect fuel 1 _ c j ll' h3
                              have rlr : lr'.rect = lr.rect :=
                                addCell_rect fuel 1 _ c j lr' h4
                              have inv' : ∀ (ch ch' : QTNode),
                                  addCell fuel 1 ch c j = some ch' →
                                  TreeInv ch (S.filter (fun e => ch.rect.containsRect e.2)) →
                                  TreeInv ch'
                                    ((S ++ [(j, c)]).filter
                                      (fun e => ch.rect.containsRect e.2)) := by
                                intro ch ch' hadd hinvc
                                have hk := ih _ _ c j ch' hinvc hadd
                                rw [filter_append_singleton]
                                by_cases hqc : ch.rect.containsRect c = true
                                · have := hk.2 hqc (by
                                    intro e he hcoords
                                    exact hdist e (List.mem_of_mem_filter he) hcoords)
                                  simpa [hqc] using this
                                · have heq := hk.1 ((Bool.not_eq_true _).mp hqc)
                                  rw [heq]
                                  simpa [hqc] using hinvc
                              refine ⟨hwf, ?_, hi, harea,
                                by rw [rul, hul], by rw [rur, hur],
                                by rw [rll, hll], by rw [rlr, hlr],
                                ?_, ?_, ?_, ?_⟩
                              · intro e he
                                rcases List.mem_append.mp he with he | he
                                · exact hS e he
                                · rcases List.mem_singleton.mp he with rfl
                                  exact hc
                              · rw [rul]
                                exact inv' _ _ h1 Tul
                              · rw [rur]
                                exact inv' _ _ h2 Tur
                              · rw [rll]
                                exact inv' _ _ h3 Tll
                              · rw [rlr]
                                exact inv' _ _ h4 Tlr
      · have hcf : n.rect.containsRect c = false := (Bool.not_eq_true _).mp hc
        rw [hcf] at h
        simp only [Bool.false_eq_true, if_false] at h
        cases h
        exact ⟨fun _ => rfl, fun htrue => absurd htrue hc⟩

/-- Sequential insertion of an indexed list preserves the invariant. -/
lemma addCells_inv : ∀ (L : List Cell) (fuel : Nat) (n : QTNode) (S : List (Nat × Cell))
    (k : Nat) (n' : QTNode),
    TreeInv n S →
    (∀ c ∈ L, n.rect.containsRect c = true) →
    (∀ e ∈ S, ∀ c ∈ L, ¬(e.2.row = c.row ∧ e.2.col = c.col)) →
    L.Pairwise (fun a b => ¬(a.row = b.row ∧ a.col = b.col)) →
    addCells fuel 1 n L k = some n' →
    TreeInv n' (S ++ L.enumFrom k) ∧ n'.rect = n.rect := by
  intro L
  induction L with
  | nil =>
      intro fuel n S k n' hinv _ _ _ h
      unfold addCells at h
      cases h
      constructor
      · simpa using hinv
      · rfl
  | cons c cs ih =>
      intro fuel n S k n' hinv hcont hdist hpw h
      unfold addCells at h
      cases haC : addCell fuel 1 n c k with
      | none => rw [haC] at h; cases h
      | some n₁ =>
          rw [haC] at h
          have hrect₁ : n₁.rect = n.rect := addCell_rect fuel 1 n c k n₁ haC
          have hinv₁ : TreeInv n₁ (S ++ [(k, c)]) :=
            (addCell_inv fuel n S c k n₁ hinv haC).2
              (hcont c (List.mem_cons_self _ _))
              (fun e he => hdist e he c (List.mem_cons_self _ _))
          have hpw' := List.pairwise_cons.mp hpw
          obtain ⟨res, hrect⟩ := ih fuel n₁ (S ++ [(k, c)]) (k + 1) n'
            hinv₁
            (by
              intro c' hc'
              rw [hrect₁]
              exact hcont c' (List.mem_cons_of_mem _ hc'))
            (by
              intro e he c' hc'
              rcases List.mem_append.mp he with he | he
              · exact hdist e he c' (List.mem_cons_of_mem _ hc')
              · rcases List.mem_singleton.mp he with rfl
                exact hpw'.1 c' hc')
            hpw'.2
            h
          refine ⟨?_, by rw [hrect, hrect₁]⟩
          have hsplit : S ++ List.enumFrom k (c :: cs) =
              (S ++ [(k, c)]) ++ List.enumFrom (k + 1) cs := by
            rw [List.append_assoc]
            rfl
          rw [hsplit]
          exact res

/-- Lower bounds of a min fold. -/
lemma foldl_min_le_proj (f : Cell → Int) : ∀ (l : List Cell) (a : Int),
    l.foldl (fun m c => min m (f c)) a ≤ a ∧
    ∀ c ∈ l, l.foldl (fun m c => min m (f c)) a ≤ f c := by
  intro l
  induction l with
  | nil =>
      intro a
      refine ⟨le_refl a, ?_⟩
      intro c hc
      cases hc
  | cons x xs ih =>
      intro a
      have h := ih (min a (f x))
      refine ⟨le_trans h.1 (min_le_left _ _), ?_⟩
      intro c hc
      rcases List.mem_cons.mp hc with rfl | hc
      · exact le_trans h.1 (min_le_right _ _)
      · exact h.2 c hc

/-- Upper bounds of a max fold. -/
lemma le_foldl_max_proj (f : Cell → Int) : ∀ (l : List Cell) (a : Int),
    a ≤ l.foldl (fun m c => max m (f c)) a ∧
    ∀ c ∈ l, f c ≤ l.foldl (fun m c => max m (f c)) a := by
  intro l
  induction l with
  | nil =>
      intro a
      refine ⟨le_refl a, ?_⟩
      intro c hc
      cases hc
  | cons x xs ih =>
      intro a
      have h := ih (max a (f x))
      refine ⟨le_trans (le_max_left _ _) h.1, ?_⟩
      intro c hc
      rcases List.mem_cons.mp hc with rfl | hc
      · exact le_trans (le_max_right _ _) h.1
      · exact h.2 c hc

/-- A min fold of nonnegative values from a nonnegative start stays
nonnegative. -/
lemma foldl_min_nonneg_proj (f : Cell → Int) : ∀ (l : List Cell) (a : Int),
    0 ≤ a → (∀ c ∈ l, 0 ≤ f c) →
    0 ≤ l.foldl (fun m c => min m (f c)) a := by
  intro l
  induction l with
  | nil =>
      intro a ha _
      exact ha
  | cons x xs ih =>
      intro a ha hl
      exact ih (min a (f x)) (le_min ha (hl x (List.mem_cons_self _ _)))
        (fun c hc => hl c (List.mem_cons_of_mem _ hc))

/-- The root built by index over a nonnegative cell list is well-formed
and contains every input cell. -/
lemma index_root_props (L : List Cell) (hnn : ∀ c ∈ L, 0 ≤ c.row ∧ 0 ≤ c.col) :
    (Rect.mk (if L.length > 0 then buildAxisAlignedBoundingBox L else emptyAABB).rowMin
      (if L.length > 0 then buildAxisAlignedBoundingBox L else emptyAABB).colMin
      (if L.length > 0 then buildAxisAlignedBoundingBox L else emptyAABB).rowMax
      (if L.length > 0 then buildAxisAlignedBoundingBox L else emptyAABB).colMax).wf ∧
    (∀ c ∈ L,
      (Rect.mk (if L.length > 0 then buildAxisAlignedBoundingBox L else emptyAABB).rowMin
        (if L.length > 0 then buildAxisAlignedBoundingBox L else emptyAABB).colMin
        (if L.length > 0 then buildAxisAlignedBoundingBox L else emptyAABB).rowMax
        (if L.length > 0 then buildAxisAlignedBoundingBox L else emptyAABB).colMax).containsRect
        c = true) := by
  cases L with
  | nil =>
      constructor
      · simp [emptyAABB, Rect.wf]
      · intro c hc
        cases hc
  | cons c0 rest =>
      have hlen : (c0 :: rest).length > 0 := by simp
      simp only [hlen, if_pos, buildAxisAlignedBoundingBox]
      have hminr := foldl_min_le_proj (fun c => c.row) (c0 :: rest) c0.row
      have hmaxr := le_foldl_max_proj (fun c => c.row) (c0 :: rest) c0.row
      have hminc := foldl_min_le_proj (fun c => c.col) (c0 :: rest) c0.col
      have hmaxc := le_foldl_max_proj (fun c => c.col) (c0 :: rest) c0.col
      have hnnr : 0 ≤ (c0 :: rest).foldl (fun m c => min m c.row) c0.row :=
        foldl_min_nonneg_proj (fun c => c.row) (c0 :: rest) c0.row
          (hnn c0 (List.mem_cons_self _ _)).1 (fun c hc => (hnn c hc).1)
      have hnnc : 0 ≤ (c0 :: rest).foldl (fun m c => min m c.col) c0.col :=
        foldl_min_nonneg_proj (fun c => c.col) (c0 :: rest) c0.col
          (hnn c0 (List.mem_cons_self _ _)).2 (fun c hc => (hnn c hc).2)
      constructor
      · refine ⟨hnnr, hnnc, ?_, ?_⟩
        · have h1 := hminr.1
          have h2 := hmaxr.1
          simp only
          omega
        · have h1 := hminc.1
          have h2 := hmaxc.1
          simp only
          omega
      · intro c hc
        rw [containsRect_iff]
        have h1 := hminr.2 c hc
        have h2 := hmaxr.2 c hc
        have h3 := hminc.2 c hc
        have h4 := hmaxc.2 c hc
        simp only
        omega

/-- Containment only inspects the cell coordinates. -/
lemma containsRect_congr_coords (r : Rect) (c₁ c₂ : Cell)
    (h1 : c₁.row = c₂.row) (h2 : c₁.col = c₂.col) :
    r.containsRect c₁ = r.containsRect c₂ := by
  simp only [Rect.containsRect, Rect.containsPoint, h1, h2]

/-- Projections of the quadrant rectangles. -/
lemma ulRect_xx (r : Rect) : (ulRect r).xx = hmid r := rfl

lemma ulRect_yy (r : Rect) : (ulRect r).yy = vmid r := rfl

/-- The search specification of a subtree: descending from it finds
exactly the indexed unit leaf of a received cell at the query
coordinates, and misses otherwise. -/
def SearchSpec (n : QTNode) : Prop :=
  ∀ (S : List (Nat × Cell)) (q : Cell), TreeInv n S →
    (n.rect.containsRect q = false → searchGo 1 q n = none) ∧
    (n.rect.containsRect q = true →
      ((∀ e ∈ S, ¬(e.2.row = q.row ∧ e.2.col = q.col)) → searchGo 1 q n = none) ∧
      (∀ j c₀, (j, c₀) ∈ S → (c₀.row = q.row ∧ c₀.col = q.col) →
        searchGo 1 q n = some (.leaf (unitRect c₀) (some j))))

/-- Transfer of the search specification from a quadrant child chosen by
the descent to the parent received list. -/
lemma searchGo_child_case (r : Rect) (S : List (Nat × Cell)) (q : Cell)
    (ch : QTNode)
    (hchS : TreeInv ch (S.filter (fun e => ch.rect.containsRect e.2)))
    (hspec : SearchSpec ch)
    (himp1 : r.containsRect q = true → ch.rect.containsRect q = true)
    (himp2 : r.containsRect q = false → ch.rect.containsRect q = false) :
    (r.containsRect q = false → searchGo 1 q ch = none) ∧
    (r.containsRect q = true →
      ((∀ e ∈ S, ¬(e.2.row = q.row ∧ e.2.col = q.col)) → searchGo 1 q ch = none) ∧
      (∀ j c₀, (j, c₀) ∈ S → (c₀.row = q.row ∧ c₀.col = q.col) →
        searchGo 1 q ch = some (.leaf (unitRect c₀) (some j)))) := by
  have hspec' := hspec _ q hchS
  constructor
  · intro hcf
    exact hspec'.1 (himp2 hcf)
  · intro hct
    have hcht := himp1 hct
    refine ⟨?_, ?_⟩
    · intro hdist
      exact (hspec'.2 hcht).1 (fun e he => hdist e (List.mem_of_mem_filter he))
    · intro j c₀ hmem hcoords
      have hcc : ch.rect.containsRect c₀ = true := by
        rw [containsRect_congr_coords ch.rect c₀ q hcoords.1 hcoords.2]
        exact hcht
      exact (hspec'.2 hcht).2 j c₀
        (List.mem_filter.mpr ⟨hmem, by simpa using hcc⟩) hcoords

/-- Correctness of the recursive search descent over an invariant
subtree. -/
lemma searchGo_inv : ∀ (n : QTNode), SearchSpec n := by
  intro n
  induction n with
  | leaf r i =>
      intro S q hinv
      obtain ⟨hwf, hS, hdisj⟩ := hinv
      constructor
      · intro hcf
        simp only [QTNode.rect] at hcf
        simp only [searchGo]
        by_cases hA : rectArea r = 1 <;> simp [hA, hcf]
      · intro hct
        simp only [QTNode.rect] at hct
        constructor
        · intro hdist
          rcases hdisj with ⟨hSnil, hinone⟩ | ⟨j₀, c₀, hSeq, hi₀, hr₀⟩
          · simp only [searchGo]
            by_cases hA : rectArea r = 1 <;> simp [hA, hinone]
          · exfalso
            have hcoords := (containsRect_unitRect_iff c₀ q).mp (by rw [← hr₀]; exact hct)
            exact hdist (j₀, c₀) (by rw [hSeq]; exact List.mem_singleton.mpr rfl)
              ⟨hcoords.1.symm, hcoords.2.symm⟩
        · intro j c₀ hmem hcoords
          rcases hdisj with ⟨hSnil, hinone⟩ | ⟨j₀, c₀', hSeq, hi₀, hr₀⟩
          · rw [hSnil] at hmem
            cases hmem
          · rw [hSeq] at hmem
            have heq := List.mem_singleton.mp hmem
            cases heq
            have hwfu := hwf
            rw [hr₀] at hwfu
            have hArea : rectArea r = 1 := by
              rw [hr₀]
              exact rectArea_unitRect c₀ hwfu.1 hwfu.2.1
            simp only [searchGo]
            rw [if_pos hArea, hi₀, hr₀]
            have hctu : (unitRect c₀).containsRect q = true := by rw [← hr₀]; exact hct
            simp [hctu]
  | branch r i ul ur ll lr ihul ihur ihll ihlr =>
      intro S q hinv
      obtain ⟨hwf, hS, hi, harea, hul, hur, hll, hlr, Tul, Tur, Tll, Tlr⟩ := hinv
      have hA : ¬ rectArea r = 1 := by omega
      have hmids := mid_bounds r hwf
      rw [show (QTNode.branch r i ul ur ll lr).rect = r from rfl]
      by_cases hleft : q.row + 1 ≤ hmid r
      · by_cases hup : q.col + 1 ≤ vmid r
        · have hred : searchGo 1 q (.branch r i ul ur ll lr) = searchGo 1 q ul := by
            simp only [searchGo]
            rw [if_neg hA, hul, ulRect_xx, ulRect_yy, if_pos hleft, if_pos hup]
          rw [hred]
          exact searchGo_child_case r S q ul Tul ihul
            (fun hct => by
              rw [hul]
              exact (routing r q hwf hct).1.mpr ⟨hleft, hup⟩)
            (fun hcf => by
              rw [hul]
              by_contra hcon
              have hcon' : (ulRect r).containsRect q = true := by simpa using hcon
              have := containsRect_mono r (ulRect r) q (le_refl _)
                hmids.2.1 (le_refl _) hmids.2.2.2 hcon'
              rw [this] at hcf
              cases hcf)
        · have hred : searchGo 1 q (.branch r i ul ur ll lr) = searchGo 1 q ll := by
            simp only [searchGo]
            rw [if_neg hA, hul, ulRect_xx, ulRect_yy, if_pos hleft, if_neg hup]
          rw [hred]
          exact searchGo_child_case r S q ll Tll ihll
            (fun hct => by
              rw [hll]
              exact (routing r q hwf hct).2.2.1.mpr ⟨hleft, hup⟩)
            (fun hcf => by
              rw [hll]
              by_contra hcon
              have hcon' : (llRect r).containsRect q = true := by simpa using hcon
              have := containsRect_mono r (llRect r) q (le_refl _)
                hmids.2.1 hmids.2.2.1 (le_refl _) hcon'
              rw [this] at hcf
              cases hcf)
      · by_cases hup : q.col + 1 ≤ vmid r
        · have hred : searchGo 1 q (.branch r i ul ur ll lr) = searchGo 1 q ur := by
            simp only [searchGo]
            rw [if_neg hA, hul, ulRect_xx, ulRect_yy, if_neg hleft, if_pos hup]
          rw [hred]
          exact searchGo_child_case r S q ur Tur ihur
            (fun hct => by
              rw [hur]
              exact (routing r q hwf hct).2.1.mpr ⟨hleft, hup⟩)
            (fun hcf => by
              rw [hur]
              by_contra hcon
              have hcon' : (urRect r).containsRect q = true := by simpa using hcon
              have := containsRect_mono r (urRect r) q hmids.1
                (le_refl _) (le_refl _) hmids.2.2.2 hcon'
              rw [this] at hcf
              cases hcf)
        · have hred : searchGo 1 q (.branch r i ul ur ll lr) = searchGo 1 q lr := by
            simp only [searchGo]
            rw [if_neg hA, hul, ulRect_xx, ulRect_yy, if_neg hleft, if_neg hup]
          rw [hred]
          exact searchGo_child_case r S q lr Tlr ihlr
            (fun hct => by
              rw [hlr]
              exact (routing r q hwf hct).2.2.2.mpr ⟨hleft, hup⟩)
            (fun hcf => by
              rw [hlr]
              by_contra hcon
              have hcon' : (lrRect r).containsRect q = true := by simpa using hcon
              have := containsRect_mono r (lrRect r) q hmids.1
                (le_refl _) hmids.2.2.1 (le_refl _) hcon'
              rw [this] at hcf
              cases hcf)

/-- A cell inside the query rectangle makes its unit square intersect the
query box. -/
lemma isInside_intersects_unit (c : Cell) (x y xx yy : Int)
    (h : c.isInsideRect x y xx yy = true) :
    (unitRect c).intersectsAABB x y xx yy = true := by
  rw [isInsideRect_iff] at h
  rw [intersectsAABB_iff]
  unfold unitRect
  simp only
  omega

/-- A rectangle containing a cell lying inside the query box intersects
the query box. -/
lemma contains_isInside_intersects (r : Rect) (c : Cell) (x y xx yy : Int)
    (hc : r.containsRect c = true) (hin : c.isInsideRect x y xx yy = true) :
    r.intersectsAABB x y xx yy = true := by
  rw [containsRect_iff] at hc
  rw [isInsideRect_iff] at hin
  rw [intersectsAABB_iff]
  omega

/-- Splitting a list along four mutually exclusive and exhaustive
predicates is a permutation. -/
lemma perm_filter_four {α : Type} (p1 p2 p3 p4 : α → Bool) :
    ∀ (S : List α),
    (∀ a ∈ S,
      (p1 a = true ∧ p2 a = false ∧ p3 a = false ∧ p4 a = false) ∨
      (p1 a = false ∧ p2 a = true ∧ p3 a = false ∧ p4 a = false) ∨
      (p1 a = false ∧ p2 a = false ∧ p3 a = true ∧ p4 a = false) ∨
      (p1 a = false ∧ p2 a = false ∧ p3 a = false ∧ p4 a = true)) →
    S.Perm (S.filter p1 ++ S.filter p2 ++ S.filter p3 ++ S.filter p4) := by
  intro S
  induction S with
  | nil =>
      intro _
      simp
  | cons a S' ih =>
      intro hex
      have iha := ih (fun b hb => hex b (List.mem_cons_of_mem _ hb))
      simp only [List.append_assoc] at iha
      rcases hex a (List.mem_cons_self _ _) with
        ⟨h1, h2, h3, h4⟩ | ⟨h1, h2, h3, h4⟩ | ⟨h1, h2, h3, h4⟩ | ⟨h1, h2, h3, h4⟩ <;>
        simp only [List.filter_cons, h1, h2, h3, h4, if_true, if_false,
          List.cons_append, List.append_assoc]
      · exact List.Perm.cons a iha
      · exact (List.Perm.cons a iha).trans
          (@List.perm_middle _ a (S'.filter p1) (S'.filter p2 ++ (S'.filter p3 ++ S'.filter p4))).symm
      · refine (List.Perm.cons a iha).trans ?_
        have hm := (@List.perm_middle _ a (S'.filter p1 ++ S'.filter p2)
          (S'.filter p3 ++ S'.filter p4)).symm
        simpa [List.append_assoc] using hm
      · refine (List.Perm.cons a iha).trans ?_
        have hm := (@List.perm_middle _ a ((S'.filter p1 ++ S'.filter p2) ++ S'.filter p3)
          (S'.filter p4)).symm
        simpa [List.append_assoc] using hm

/-- Filters commute. -/
lemma filter_swap {α : Type} (p q : α → Bool) (l : List α) :
    (l.filter p).filter q = (l.filter q).filter p := by
  induction l with
  | nil => rfl
  | cons a l ih =>
      by_cases hp : p a = true <;> by_cases hq : q a = true <;>
        simp [List.filter_cons, hp, hq, ih]

/-- A boolean that is not true is false. -/
lemma bool_eq_false {b : Bool} (h : ¬ b = true) : b = false := by
  cases b
  · rfl
  · exact absurd rfl h

/-- Correctness of the recursive range query over an invariant subtree:
it returns, up to permutation, exactly the received cells lying inside
the query rectangle. -/
lemma findGo_inv : ∀ (n : QTNode) (S : List (Nat × Cell)) (leaves : List Cell)
    (x y xx yy : Int),
    TreeInv n S →
    (∀ e ∈ S, ∃ h : e.1 < leaves.length, leaves.get ⟨e.1, h⟩ = e.2) →
    (findGo leaves x y xx yy n).Perm
      ((S.filter (fun e => e.2.isInsideRect x y xx yy)).map (fun e => e.2)) := by
  intro n
  induction n with
  | leaf r i =>
      intro S leaves x y xx yy hinv hside
      obtain ⟨hwf, hS, hdisj⟩ := hinv
      rcases hdisj with ⟨hSnil, hinone⟩ | ⟨j, c₀, hSeq, hi, hr⟩
      · subst hSnil
        subst hinone
        by_cases hI : r.intersectsAABB x y xx yy = true <;>
          simp [findGo, hI]
      · subst hSeq
        subst hi
        subst hr
        by_cases hI : (unitRect c₀).intersectsAABB x y xx yy = true
        · obtain ⟨hjlen, hjget⟩ := hside (j, c₀) (List.mem_singleton.mpr rfl)
          have hget : leaves[j]? = some c₀ := by
            rw [List.getElem?_eq_getElem hjlen]
            simp only at hjget
            rw [← hjget]
            simp [List.get_eq_getElem]
          simp only [findGo]
          rw [if_pos hI]
          by_cases hin : c₀.isInsideRect x y xx yy = true <;>
            simp [hget, hin, List.filter]
        · have hnin : c₀.isInsideRect x y xx yy = false :=
            bool_eq_false (fun hin => hI (isInside_intersects_unit c₀ x y xx yy hin))
          simp only [findGo]
          rw [if_neg hI]
          simp [List.filter, hnin]
  | branch r i ul ur ll lr ihul ihur ihll ihlr =>
      intro S leaves x y xx yy hinv hside
      obtain ⟨hwf, hS, hi, harea, hul, hur, hll, hlr, Tul, Tur, Tll, Tlr⟩ := hinv
      by_cases hI : r.intersectsAABB x y xx yy = true
      · have hred : findGo leaves x y xx yy (.branch r i ul ur ll lr) =
            findGo leaves x y xx yy ul ++ findGo leaves x y xx yy ur ++
            findGo leaves x y xx yy ll ++ findGo leaves x y xx yy lr := by
          simp only [findGo]
          rw [if_pos hI]
        rw [hred]
        have hsub : ∀ (p : Nat × Cell → Bool), ∀ e ∈ S.filter p,
            ∃ h : e.1 < leaves.length, leaves.get ⟨e.1, h⟩ = e.2 :=
          fun p e he => hside e (List.mem_of_mem_filter he)
        have h1 := ihul (S.filter (fun e => ul.rect.containsRect e.2)) leaves x y xx yy Tul (hsub _)
        have h2 := ihur (S.filter (fun e => ur.rect.containsRect e.2)) leaves x y xx yy Tur (hsub _)
        have h3 := ihll (S.filter (fun e => ll.rect.containsRect e.2)) leaves x y xx yy Tll (hsub _)
        have h4 := ihlr (S.filter (fun e => lr.rect.containsRect e.2)) leaves x y xx yy Tlr (hsub _)
        have hexc : ∀ e ∈ S.filter (fun e => e.2.isInsideRect x y xx yy),
            ((fun e => ul.rect.containsRect e.2) e = true ∧
             (fun e => ur.rect.containsRect e.2) e = false ∧
             (fun e => ll.rect.containsRect e.2) e = false ∧
             (fun e => lr.rect.containsRect e.2) e = false) ∨
            ((fun e => ul.rect.containsRect e.2) e = false ∧
             (fun e => ur.rect.containsRect e.2) e = true ∧
             (fun e => ll.rect.containsRect e.2) e = false ∧
             (fun e => lr.rect.containsRect e.2) e = false) ∨
            ((fun e => ul.rect.containsRect e.2) e = false ∧
             (fun e => ur.rect.containsRect e.2) e = false ∧
             (fun e => ll.rect.containsRect e.2) e = true ∧
             (fun e => lr.rect.containsRect e.2) e = false) ∨
            ((fun e => ul.rect.containsRect e.2) e = false ∧
             (fun e => ur.rect.containsRect e.2) e = false ∧
             (fun e => ll.rect.containsRect e.2) e = false ∧
             (fun e => lr.rect.containsRect e.2) e = true) := by
          intro e he
          have heS := List.mem_of_mem_filter he
          have hr := routing r e.2 hwf (hS e heS)
          rw [hul, hur, hll, hlr]
          simp only
          by_cases hlft : e.2.row + 1 ≤ hmid r
          · by_cases hupb : e.2.col + 1 ≤ vmid r
            · exact Or.inl ⟨hr.1.mpr ⟨hlft, hupb⟩,
                bool_eq_false (fun hcon => (hr.2.1.mp hcon).1 hlft),
                bool_eq_false (fun hcon => (hr.2.2.1.mp hcon).2 hupb),
                bool_eq_false (fun hcon => (hr.2.2.2.mp hcon).1 hlft)⟩
            · exact Or.inr (Or.inr (Or.inl ⟨
                bool_eq_false (fun hcon => hupb (hr.1.mp hcon).2),
                bool_eq_false (fun hcon => hupb (hr.2.1.mp hcon).2),
                hr.2.2.1.mpr ⟨hlft, hupb⟩,
                bool_eq_false (fun hcon => (hr.2.2.2.mp hcon).1 hlft)⟩))
          · by_cases hupb : e.2.col + 1 ≤ vmid r
            · exact Or.inr (Or.inl ⟨
                bool_eq_false (fun hcon => hlft (hr.1.mp hcon).1),
                hr.2.1.mpr ⟨hlft, hupb⟩,
                bool_eq_false (fun hcon => hlft (hr.2.2.1.mp hcon).1),
                bool_eq_false (fun hcon => (hr.2.2.2.mp hcon).2 hupb)⟩)
            · exact Or.inr (Or.inr (Or.inr ⟨
                bool_eq_false (fun hcon => hlft (hr.1.mp hcon).1),
                bool_eq_false (fun hcon => hupb (hr.2.1.mp hcon).2),
                bool_eq_false (fun hcon => hlft (hr.2.2.1.mp hcon).1),
                hr.2.2.2.mpr ⟨hlft, hupb⟩⟩))
        have hpart := perm_filter_four _ _ _ _
          (S.filter (fun e => e.2.isInsideRect x y xx yy)) hexc
        have hmap := List.Perm.map (fun e : Nat × Cell => e.2) hpart
        rw [List.map_append, List.map_append, List.map_append] at hmap
        rw [filter_swap (fun e => e.2.isInsideRect x y xx yy)
            (fun e => ul.rect.containsRect e.2) S,
          filter_swap (fun e => e.2.isInsideRect x y xx yy)
            (fun e => ur.rect.containsRect e.2) S,
          filter_swap (fun e => e.2.isInsideRect x y xx yy)
            (fun e => ll.rect.containsRect e.2) S,
          filter_swap (fun e => e.2.isInsideRect x y xx yy)
            (fun e => lr.rect.containsRect e.2) S] at hmap
        exact (List.Perm.append (List.Perm.append (List.Perm.append h1 h2) h3) h4).trans
          hmap.symm
      · have hred : findGo leaves x y xx yy (.branch r i ul ur ll lr) = [] := by
          simp only [findGo]
          rw [if_neg hI]
        rw [hred]
        have hT : S.filter (fun e => e.2.isInsideRect x y xx yy) = [] := by
          rw [List.filter_eq_nil_iff]
          intro e he hin
          exact hI (contains_isInside_intersects r e.2 x y xx yy (hS e he) (by simpa using hin))
        rw [hT]
        simp

/-- Indexing a nonnegative, coordinate-distinct cell list from the empty
tree yields a tree whose root satisfies the structural invariant for the
fully enumerated list. -/
lemma index_inv (fuel : Nat) (L : List Cell) (t : QuadTree)
    (hnn : ∀ c ∈ L, 0 ≤ c.row ∧ 0 ≤ c.col)
    (hdist : L.Pairwise (fun a b => ¬(a.row = b.row ∧ a.col = b.col)))
    (hidx : QuadTree.index fuel QuadTree.empty (some L) = some t) :
    t.leaves = L ∧ t.minimumCellSize = 1 ∧
    ∃ root, t.root = some root ∧ TreeInv root (List.enumFrom 0 L) ∧
      (∀ c ∈ L, root.rect.containsRect c = true) := by
  have hprops := index_root_props L hnn
  dsimp only [QuadTree.index, QuadTree.empty] at hidx
  split at hidx
  · cases hidx
  · cases hidx
    rename_i node heq
    refine ⟨rfl, rfl, node, rfl, ?_⟩
    have hinv0 : TreeInv (QTNode.leaf
        ⟨(if L.length > 0 then buildAxisAlignedBoundingBox L else emptyAABB).rowMin,
         (if L.length > 0 then buildAxisAlignedBoundingBox L else emptyAABB).colMin,
         (if L.length > 0 then buildAxisAlignedBoundingBox L else emptyAABB).rowMax,
         (if L.length > 0 then buildAxisAlignedBoundingBox L else emptyAABB).colMax⟩ none) [] := by
      refine ⟨hprops.1, ?_, Or.inl ⟨rfl, rfl⟩⟩
      intro e he
      cases he
    have hcont0 : ∀ c ∈ L, (QTNode.leaf
        ⟨(if L.length > 0 then buildAxisAlignedBoundingBox L else emptyAABB).rowMin,
         (if L.length > 0 then buildAxisAlignedBoundingBox L else emptyAABB).colMin,
         (if L.length > 0 then buildAxisAlignedBoundingBox L else emptyAABB).rowMax,
         (if L.length > 0 then buildAxisAlignedBoundingBox L else emptyAABB).colMax⟩ none).rect.containsRect
        c = true := by
      intro c hc
      exact hprops.2 c hc
    obtain ⟨hTI, hrect⟩ := addCells_inv L fuel _ [] 0 node hinv0 hcont0
      (by intro e he; cases he) hdist heq
    refine ⟨by simpa using hTI, ?_⟩
    intro c hc
    rw [hrect]
    exact hcont0 c hc

/-- Every enumerated entry indexes its own cell. -/
lemma enumFrom_zero_side (L : List Cell) :
    ∀ e ∈ List.enumFrom 0 L, ∃ h : e.1 < L.length, L.get ⟨e.1, h⟩ = e.2 := by
  intro e he
  obtain ⟨j, c⟩ := e
  rw [List.mk_mem_enumFrom_iff_le_and_getElem?_sub] at he
  simp only [Nat.sub_zero] at he
  obtain ⟨h, hget⟩ := List.getElem?_eq_some.mp he.2
  exact ⟨h, by simpa [List.get_eq_getElem] using hget⟩

/-- Every cell of a list appears in its enumeration. -/
lemma mem_enumFrom_zero (L : List Cell) (c : Cell) (hc : c ∈ L) :
    ∃ j, (j, c) ∈ List.enumFrom 0 L := by
  obtain ⟨i, hi⟩ := List.mem_iff_get.mp hc
  refine ⟨i.1, ?_⟩
  rw [List.mk_mem_enumFrom_iff_le_and_getElem?_sub]
  simp only [Nat.sub_zero, Nat.zero_le, true_and]
  rw [List.getElem?_eq_getElem i.2]
  rw [← hi]
  simp [List.get_eq_getElem]

/-- The second components of an enumeration are the list members. -/
lemma snd_mem_of_mem_enumFrom_zero (L : List Cell) (e : Nat × Cell)
    (he : e ∈ List.enumFrom 0 L) : e.2 ∈ L := by
  obtain ⟨h, hget⟩ := enumFrom_zero_side L e he
  rw [← hget]
  exact List.get_mem L _ h

/-! ### C1 (amended): index/search correctness on nonnegative coordinates -/

/-- C1 (amended): for every finite list L of cells with pairwise-distinct
and nonnegative (row, col) coordinates, whenever QuadTree.index(L)
completes: aliveCellsCount() equals L.length; for every cell c in L,
search(c) returns a (non-subdivided) leaf node whose index field maps back
to the cell of the leaves sequence at c's coordinates; and searching a
cell at any coordinates not present in L returns null.  (The original
claim over arbitrary integer coordinates fails; see the counterexample.) -/
theorem quadtree_index_search_correct (fuel : Nat) (L : List Cell) (t : QuadTree)
    (hnn : ∀ c ∈ L, 0 ≤ c.row ∧ 0 ≤ c.col)
    (hdist : L.Pairwise (fun a b => ¬(a.row = b.row ∧ a.col = b.col)))
    (hidx : QuadTree.index fuel QuadTree.empty (some L) = some t) :
    t.aliveCellsCount = L.length ∧
    (∀ c ∈ L, ∃ nd j, t.search c = .ok (some nd) ∧ nd.subdivided = false ∧
      nd.index = some j ∧ ∃ h : j < t.leaves.length,
      (t.leaves.get ⟨j, h⟩).row = c.row ∧ (t.leaves.get ⟨j, h⟩).col = c.col) ∧
    (∀ q : Cell, (∀ c ∈ L, ¬(c.row = q.row ∧ c.col = q.col)) →
      t.search q = .ok none) := by
  obtain ⟨hleaves, hmcs, root, hroot, hTI, hcont⟩ := index_inv fuel L t hnn hdist hidx
  have hspec := searchGo_inv root (List.enumFrom 0 L)
  have hsearch : ∀ q : Cell, t.search q = .ok (searchGo 1 q root) := by
    intro q
    unfold QuadTree.search
    rw [hroot, hmcs]
  refine ⟨by rw [QuadTree.aliveCellsCount, hleaves], ?_, ?_⟩
  · intro c hc
    obtain ⟨j, hj⟩ := mem_enumFrom_zero L c hc
    have hfound := ((hspec c hTI).2 (hcont c hc)).2 j c hj ⟨rfl, rfl⟩
    refine ⟨.leaf (unitRect c) (some j), j, ?_, rfl, rfl, ?_⟩
    · rw [hsearch c, hfound]
    · obtain ⟨h, hget⟩ := enumFrom_zero_side L (j, c) hj
      simp only at h hget
      rw [hleaves]
      exact ⟨h, by rw [hget], by rw [hget]⟩
  · intro q hq
    rw [hsearch q]
    by_cases hcq : root.rect.containsRect q = true
    · rw [((hspec q hTI).2 hcq).1 ?_]
      intro e he
      exact hq e.2 (snd_mem_of_mem_enumFrom_zero L e he)
    · rw [(hspec q hTI).1 (bool_eq_false hcq)]

/-- The indexed single-cell tree used by the amended C1 and C2
witnesses. -/
def witnessTree1 : QuadTree :=
  ⟨[⟨0, 0, 1, .alive⟩], some (.leaf ⟨0, 0, 1, 1⟩ (some 0)), 1⟩

/-- Witness for the amended C1 on the concrete list [Cell(0, 0)]. -/
theorem quadtree_index_search_correct_witness :
    ((∀ c ∈ [(⟨0, 0, 1, .alive⟩ : Cell)], 0 ≤ c.row ∧ 0 ≤ c.col) ∧
     ([(⟨0, 0, 1, .alive⟩ : Cell)].Pairwise
       (fun a b => ¬(a.row = b.row ∧ a.col = b.col))) ∧
     QuadTree.index 4 QuadTree.empty (some [(⟨0, 0, 1, .alive⟩ : Cell)]) =
       some witnessTree1) ∧
    (witnessTree1.aliveCellsCount = [(⟨0, 0, 1, .alive⟩ : Cell)].length ∧
     (∀ c ∈ [(⟨0, 0, 1, .alive⟩ : Cell)], ∃ nd j,
       witnessTree1.search c = .ok (some nd) ∧ nd.subdivided = false ∧
       nd.index = some j ∧ ∃ h : j < witnessTree1.leaves.length,
       (witnessTree1.leaves.get ⟨j, h⟩).row = c.row ∧
       (witnessTree1.leaves.get ⟨j, h⟩).col = c.col) ∧
     (∀ q : Cell, (∀ c ∈ [(⟨0, 0, 1, .alive⟩ : Cell)],
        ¬(c.row = q.row ∧ c.col = q.col)) →
       witnessTree1.search q = .ok none)) :=
  ⟨⟨by decide, by decide, by decide⟩,
   quadtree_index_search_correct 4 _ _ (by decide) (by decide) (by decide)⟩

/-! ### C2 (amended): range query exactness on nonnegative coordinates -/

/-- Discarding the enumeration indices commutes with filtering on the
cell alone. -/
lemma enumFrom_filter_map_snd (p : Cell → Bool) : ∀ (l : List Cell) (k : Nat),
    ((List.enumFrom k l).filter (fun e => p e.2)).map (fun e => e.2) = l.filter p := by
  intro l
  induction l with
  | nil => intro k; rfl
  | cons a l ih =>
      intro k
      by_cases hp : p a = true <;>
        simp [List.enumFrom, List.filter_cons, hp, ih]

/-- C2 (amended): for every finite list L of cells with pairwise-distinct
and nonnegative coordinates and every query rectangle (x, y, xx, yy), on
a tree produced by QuadTree.index(L), findAliveInArea(x, y, xx, yy)
returns exactly the cells of L with x ≤ row ≤ xx and y ≤ col ≤ yy, up to
permutation (order-independent set equality without omissions, extras or
duplicates).  (The original claim over arbitrary integer coordinates
fails; see the counterexample.) -/
theorem quadtree_findAliveInArea_exact (fuel : Nat) (L : List Cell) (t : QuadTree)
    (x y xx yy : Int)
    (hnn : ∀ c ∈ L, 0 ≤ c.row ∧ 0 ≤ c.col)
    (hdist : L.Pairwise (fun a b => ¬(a.row = b.row ∧ a.col = b.col)))
    (hidx : QuadTree.index fuel QuadTree.empty (some L) = some t) :
    ∃ res, t.findAliveInArea x y xx yy = .ok res ∧
      res.Perm (L.filter
        (fun c => decide (x ≤ c.row ∧ c.row ≤ xx ∧ y ≤ c.col ∧ c.col ≤ yy))) := by
  obtain ⟨hleaves, hmcs, root, hroot, hTI, hcont⟩ := index_inv fuel L t hnn hdist hidx
  refine ⟨findGo t.leaves x y xx yy root, ?_, ?_⟩
  · unfold QuadTree.findAliveInArea
    rw [hroot]
  · have hperm := findGo_inv root (List.enumFrom 0 L) L x y xx yy hTI
      (enumFrom_zero_side L)
    rw [hleaves]
    refine hperm.trans ?_
    rw [enumFrom_filter_map_snd (fun c => c.isInsideRect x y xx yy) L 0]
    exact List.Perm.refl _

/-- Witness for the amended C2: the single-cell tree queried with the box
(0, 0, 2, 2). -/
theorem quadtree_findAliveInArea_exact_witness :
    ((∀ c ∈ [(⟨0, 0, 1, .alive⟩ : Cell)], 0 ≤ c.row ∧ 0 ≤ c.col) ∧
     ([(⟨0, 0, 1, .alive⟩ : Cell)].Pairwise
       (fun a b => ¬(a.row = b.row ∧ a.col = b.col))) ∧
     QuadTree.index 4 QuadTree.empty (some [(⟨0, 0, 1, .alive⟩ : Cell)]) =
       some witnessTree1) ∧
    (∃ res, witnessTree1.findAliveInArea 0 0 2 2 = .ok res ∧
      res.Perm ([(⟨0, 0, 1, .alive⟩ : Cell)].filter
        (fun c => decide ((0 : Int) ≤ c.row ∧ c.row ≤ 2 ∧ (0 : Int) ≤ c.col ∧ c.col ≤ 2)))) :=
  ⟨⟨by decide, by decide, by decide⟩,
   quadtree_findAliveInArea_exact 4 _ _ 0 0 2 2 (by decide) (by decide) (by decide)⟩

/-! ### C5 (amended): leaf indices sit exactly on minimal-area leaves -/

/-- Weak structural invariant that needs no distinctness of the inserted
cells: rectangles are well-formed, an indexed node has area exactly the
minimum cell size, and a subdivided node has larger area and no index. -/
def GoodNode : QTNode → Prop
  | .leaf r i => r.wf ∧ (i.isSome = true → rectArea r = 1)
  | .branch r i ul ur ll lr =>
      r.wf ∧ i = none ∧ 1 < rectArea r ∧
      GoodNode ul ∧ GoodNode ur ∧ GoodNode ll ∧ GoodNode lr

/-- addCell preserves the weak invariant (no distinctness needed). -/
lemma addCell_good : ∀ (fuel : Nat) (n : QTNode) (c : Cell) (j : Nat) (n' : QTNode),
    GoodNode n → addCell fuel 1 n c j = some n' → GoodNode n' := by
  intro fuel
  induction fuel with
  | zero => intro n c j n' _ h; cases h
  | succ fuel ih =>
      intro n c j n' hg h
      unfold addCell at h
      by_cases hc : n.rect.containsRect c = true
      · rw [if_pos hc] at h
        by_cases ha : n.area ≤ 1
        · rw [if_pos ha] at h
          cases h
          cases n with
          | branch r i ul ur ll lr =>
              obtain ⟨hwf, hi, harea, _⟩ := hg
              exact absurd ha (by simp [QTNode.area, QTNode.rect]; omega)
          | leaf r i =>
              obtain ⟨hwf, _⟩ := hg
              simp only [QTNode.rect] at hc
              simp only [QTNode.area, QTNode.rect] at ha
              refine ⟨hwf, fun _ => ?_⟩
              have h1 := one_le_area r c hwf hc
              omega
        · rw [if_neg ha] at h
          cases n with
          | leaf r i =>
              obtain ⟨hwf, hone⟩ := hg
              simp only [QTNode.rect] at hc
              simp only [QTNode.area, QTNode.rect] at ha
              have hinone : i = none := by
                cases hio : i with
                | none => rfl
                | some j₀ => exact absurd (hone (by rw [hio]; rfl)) (by omega)
              have hq := quadrants_wf r hwf
              rw [subdivide_leaf_eq] at h
              simp only at h
              cases h1 : addCell fuel 1 (.leaf (ulRect r) none) c j with
              | none => rw [h1] at h; cases h
              | some ul' =>
                  cases h2 : addCell fuel 1 (.leaf (urRect r) none) c j with
                  | none => rw [h1, h2] at h; cases h
                  | some ur' =>
                      cases h3 : addCell fuel 1 (.leaf (llRect r) none) c j with
                      | none => rw [h1, h2, h3] at h; cases h
                      | some ll' =>
                          cases h4 : addCell fuel 1 (.leaf (lrRect r) none) c j with
                          | none => rw [h1, h2, h3, h4] at h; cases h
                          | some lr' =>
                              rw [h1, h2, h3, h4] at h
                              cases h
                              have gUL : GoodNode (.leaf (ulRect r) none) :=
                                ⟨hq.1, fun hcon => by simp at hcon⟩
                              have gUR : GoodNode (.leaf (urRect r) none) :=
                                ⟨hq.2.1, fun hcon => by simp at hcon⟩
                              have gLL : GoodNode (.leaf (llRect r) none) :=
                                ⟨hq.2.2.1, fun hcon => by simp at hcon⟩
                              have gLR : GoodNode (.leaf (lrRect r) none) :=
                                ⟨hq.2.2.2, fun hcon => by simp at hcon⟩
                              exact ⟨hwf, hinone, by omega,
                                ih _ c j ul' gUL h1, ih _ c j ur' gUR h2,
                                ih _ c j ll' gLL h3, ih _ c j lr' gLR h4⟩
          | branch r i ul ur ll lr =>
              obtain ⟨hwf, hi, harea, gul, gur, gll, glr⟩ := hg
              simp only [QTNode.subdivide] at h
              cases h1 : addCell fuel 1 ul c j with
              | none => rw [h1] at h; cases h
              | some ul' =>
                  cases h2 : addCell fuel 1 ur c j with
                  | none => rw [h1, h2] at h; cases h
                  | some ur' =>
                      cases h3 : addCell fuel 1 ll c j with
                      | none => rw [h1, h2, h3] at h; cases h
                      | some ll' =>
                          cases h4 : addCell fuel 1 lr c j with
                          | none => rw [h1, h2, h3, h4] at h; cases h
                          | some lr' =>
                              rw [h1, h2, h3, h4] at h
                              cases h
                              exact ⟨hwf, hi, harea,
                                ih _ c j ul' gul h1, ih _ c j ur' gur h2,
                                ih _ c j ll' gll h3, ih _ c j lr' glr h4⟩
      · have hcf : n.rect.containsRect c = false := bool_eq_false hc
        rw [hcf] at h
        simp only [Bool.false_eq_true, if_false] at h
        cases h
        exact hg

/-- addCells preserves the weak invariant. -/
lemma addCells_good : ∀ (L : List Cell) (fuel : Nat) (n : QTNode) (k : Nat)
    (n' : QTNode), GoodNode n → addCells fuel 1 n L k = some n' → GoodNode n' := by
  intro L
  induction L with
  | nil =>
      intro fuel n k n' hg h
      unfold addCells at h
      cases h
      exact hg
  | cons c cs ih =>
      intro fuel n k n' hg h
      unfold addCells at h
      cases haC : addCell fuel 1 n c k with
      | none => rw [haC] at h; cases h
      | some n₁ =>
          rw [haC] at h
          exact ih fuel n₁ (k + 1) n' (addCell_good fuel n c k n₁ hg haC) h

/-- All nodes of a weakly invariant subtree: a subdivided node carries no
index, and a carried index implies stored area exactly 1. -/
lemma good_nodes : ∀ (n : QTNode), GoodNode n → ∀ m ∈ n.nodes,
    (m.subdivided = true → m.index = none) ∧
    (∀ j, m.index = some j → m.area = 1) := by
  intro n
  induction n with
  | leaf r i =>
      intro hg m hm
      rcases List.mem_singleton.mp hm with rfl
      constructor
      · intro hcon
        simp [QTNode.subdivided] at hcon
      · intro j hj
        simp only [QTNode.index] at hj
        exact hg.2 (by rw [hj]; rfl)
  | branch r i ul ur ll lr ihul ihur ihll ihlr =>
      intro hg m hm
      obtain ⟨hwf, hi, harea, gul, gur, gll, glr⟩ := hg
      rcases List.mem_cons.mp hm with rfl | hm
      · constructor
        · intro _
          exact hi
        · intro j hj
          simp only [QTNode.index] at hj
          rw [hj] at hi
          cases hi
      · rcases List.mem_append.mp hm with hm | hm4
        · rcases List.mem_append.mp hm with hm | hm3
          · rcases List.mem_append.mp hm with hm1 | hm2
            · exact ihul gul m hm1
            · exact ihur gur m hm2
          · exact ihll gll m hm3
        · exact ihlr glr m hm4

/-- C5 (amended): in every tree produced by QuadTree.index from cells
with nonnegative coordinates (no distinctness needed), a node carries a
leaf index only if it was assigned via insertion on a node whose stored
area equals the minimum cell size 1, and internal (subdivided) nodes
never carry an index.  (Over arbitrary integer coordinates the stored
area of an indexed node need not be 1; see the counterexample.) -/
theorem leafIndex_iff_minimal_area (fuel : Nat) (L : List Cell) (t : QuadTree)
    (root : QTNode)
    (hnn : ∀ c ∈ L, 0 ≤ c.row ∧ 0 ≤ c.col)
    (hidx : QuadTree.index fuel QuadTree.empty (some L) = some t)
    (hroot : t.root = some root) :
    ∀ m ∈ root.nodes,
      (m.subdivided = true → m.index = none) ∧
      (∀ j, m.index = some j → m.area = 1) := by
  have hprops := index_root_props L hnn
  dsimp only [QuadTree.index, QuadTree.empty] at hidx
  split at hidx
  · cases hidx
  · cases hidx
    rename_i node heq
    simp only at hroot
    have hnr : node = root := by injection hroot
    rw [hnr] at heq
    refine good_nodes root (addCells_good L fuel _ 0 root ?_ heq)
    refine ⟨hprops.1, ?_⟩
    intro hcon
    simp at hcon

/-- Witness for the amended C5 on the single-cell tree. -/
theorem leafIndex_iff_minimal_area_witness :
    ((∀ c ∈ [(⟨0, 0, 1, .alive⟩ : Cell)], 0 ≤ c.row ∧ 0 ≤ c.col) ∧
     QuadTree.index 4 QuadTree.empty (some [(⟨0, 0, 1, .alive⟩ : Cell)]) =
       some witnessTree1 ∧
     witnessTree1.root = some (.leaf ⟨0, 0, 1, 1⟩ (some 0))) ∧
    (∀ m ∈ (QTNode.leaf ⟨0, 0, 1, 1⟩ (some 0)).nodes,
      (m.subdivided = true → m.index = none) ∧
      (∀ j, m.index = some j → m.area = 1)) :=
  ⟨⟨by decide, by decide, rfl⟩,
   leafIndex_iff_minimal_area 4 [⟨0, 0, 1, .alive⟩] witnessTree1 _
     (by decide) (by decide) rfl⟩
